import Mathlib

/-!
Shallow embedding of the `rustey` runtime core (`src/lib.rs`) and proofs of the
specification's claims about it.

The embedding mirrors the source:
* `QuitFlag` — the atomic-bool cancellation flag (`lib.rs` lines 18-42); its
  shared state is one `Bool`, `raise` stores `true`, `raised` loads it.
* `SubTypes` / `Desc` / `equals_a` — the `DynEq` machinery (lines 89-108): a
  descriptor is a concrete type (a `Tag`) together with a value of that type;
  `downcastRef` models `Any::downcast_ref`, and `equals_a` models
  `other.as_any().downcast_ref::<S>() == Some(self)`.
* `SubRec` — the running-subscription handle (lines 110-140).  The per-handle
  `halt_flag` is modelled by its state (`halt : Bool`) plus an identity
  (`flagId : Nat`) so that "raised exactly once / never again" is expressible;
  flag identities are allocated fresh by a counter, as `QuitFlag::new` yields a
  fresh `Arc`.  A spawned worker thread is an identity `thread : Option Nat`.
* `retainReconcile` / `reconcilePass` — the reconciliation of `run`
  (lines 205-220): `Vec::retain_mut` with `Iterator::position` and
  `Vec::swap_remove`, then `run` on the remaining new handles, then `append`.
* `iterate` / `runLoop` / `rusteyRun` — the main loop (lines 167-229), driven
  by a finite list of incoming channel messages.
-/

namespace Rustey

/-! ## Cancellation flag (`QuitFlag`, lib.rs lines 18-42) -/

/-- State of the flag's shared `Arc<AtomicBool>`. -/
structure QuitFlag where
  quit : Bool
deriving DecidableEq

/-- `QuitFlag::new` (line 23): freshly created, false. -/
def QuitFlag.new : QuitFlag := ⟨false⟩

/-- `QuitFlag::raise` (line 29): `store(true, Relaxed)`. -/
def QuitFlag.raise (_f : QuitFlag) : QuitFlag := ⟨true⟩

/-- `QuitFlag::raised` (line 33): `load(Relaxed)`. -/
def QuitFlag.raised (f : QuitFlag) : Bool := f.quit

/-- The only mutating operation the flag's public interface offers. -/
inductive FlagOp where
  | raiseOp
deriving DecidableEq

/-- Apply a sequence of public operations to a flag. -/
def applyFlagOps (f : QuitFlag) (ops : List FlagOp) : QuitFlag :=
  ops.foldl (fun g _ => g.raise) f

/-! ## Capability-erased equality (`DynEq`, lib.rs lines 89-108)

A family of concrete descriptor types: `Tag` stands for the (runtime `TypeId`
of the) concrete Rust type, `Val t` for its values, and `peq t` for that
type's `PartialEq::eq`. -/

structure SubTypes where
  Tag : Type
  deq : DecidableEq Tag
  Val : Tag → Type
  peq : (t : Tag) → Val t → Val t → Bool

/-- An opaque (boxed `dyn`) descriptor: a concrete type together with a value. -/
def Desc (U : SubTypes) : Type := Σ t : U.Tag, U.Val t

/-- Transport a value along an equality of tags. -/
def castVal (U : SubTypes) {t t' : U.Tag} (h : t = t') (v : U.Val t) : U.Val t' :=
  h ▸ v

/-- `other.as_any().downcast_ref::<S>()` (line 106): succeeds exactly when the
concrete type of `d` is `t`. -/
def downcastRef (U : SubTypes) (t : U.Tag) (d : Desc U) : Option (U.Val t) :=
  match U.deq d.fst t with
  | .isTrue h => some (castVal U h d.snd)
  | .isFalse _ => none

/-- `DynEq::equals_a` (lines 103-107):
`other.as_any().downcast_ref::<S>() == Some(self)` where `S` is the concrete
type of `self` (the left argument `a`).  `Option`'s `PartialEq` makes this
`false` when the downcast fails, and otherwise applies `S::eq` to the
downcast value (left) and `self` (right). -/
def equals_a (U : SubTypes) (a b : Desc U) : Bool :=
  match downcastRef U a.fst b with
  | some bv => U.peq a.fst bv a.snd
  | none => false

/-- The `PartialEq` of every concrete type is symmetric (part of Rust's
documented `PartialEq` contract). -/
def SymmPeq (U : SubTypes) : Prop :=
  ∀ t (x y : U.Val t), U.peq t x y = U.peq t y x

/-- The `PartialEq` of every concrete type is transitive (part of Rust's
documented `PartialEq` contract). -/
def TransPeq (U : SubTypes) : Prop :=
  ∀ t (x y z : U.Val t), U.peq t x y = true → U.peq t y z = true →
    U.peq t x z = true

/-- The `PartialEq` of every concrete type is reflexive (true of every type
that also implements `Eq`). -/
def ReflPeq (U : SubTypes) : Prop :=
  ∀ t (x : U.Val t), U.peq t x x = true

theorem equals_a_eq_true_iff (U : SubTypes) (a b : Desc U) :
    equals_a U a b = true ↔
      ∃ h : b.fst = a.fst, U.peq a.fst (castVal U h b.snd) a.snd = true := by
  unfold equals_a downcastRef
  rcases U.deq b.fst a.fst with h | h
  · simp only []
    constructor
    · intro hf; exact absurd hf (by simp)
    · rintro ⟨h', _⟩; exact absurd h' h
  · simp only []
    constructor
    · intro hp; exact ⟨h, hp⟩
    · rintro ⟨h', hp⟩
      have : h' = h := rfl
      cases a with
      | mk ta va =>
        cases b with
        | mk tb vb =>
          cases h
          simpa [castVal] using hp

theorem equals_a_same_tag (U : SubTypes) (t : U.Tag) (x y : U.Val t) :
    equals_a U ⟨t, x⟩ ⟨t, y⟩ = U.peq t y x := by
  unfold equals_a downcastRef
  rcases U.deq (⟨t, y⟩ : Desc U).fst (⟨t, x⟩ : Desc U).fst with h | h
  · exact absurd rfl h
  · simp [castVal]

theorem equals_a_diff_tag (U : SubTypes) (a b : Desc U) (h : b.fst ≠ a.fst) :
    equals_a U a b = false := by
  unfold equals_a downcastRef
  rcases U.deq b.fst a.fst with h' | h'
  · rfl
  · exact absurd h' h

theorem equals_a_symm (U : SubTypes) (hs : SymmPeq U) (a b : Desc U) :
    equals_a U a b = equals_a U b a := by
  cases a with
  | mk ta va =>
    cases b with
    | mk tb vb =>
      rcases U.deq ta tb with h | h
      · rw [equals_a_diff_tag U _ _ (fun hc => h hc.symm),
          equals_a_diff_tag U _ _ (fun hc => h hc)]
      · cases h
        rw [equals_a_same_tag, equals_a_same_tag, hs]

theorem equals_a_trans (U : SubTypes) (ht : TransPeq U) (a b c : Desc U)
    (hab : equals_a U a b = true) (hbc : equals_a U b c = true) :
    equals_a U a c = true := by
  cases a with
  | mk ta va =>
    cases b with
    | mk tb vb =>
      cases c with
      | mk tc vc =>
        obtain ⟨h1, hp1⟩ := (equals_a_eq_true_iff U _ _).1 hab
        obtain ⟨h2, hp2⟩ := (equals_a_eq_true_iff U _ _).1 hbc
        dsimp at h1 h2
        cases h1
        cases h2
        rw [equals_a_same_tag] at hab hbc ⊢
        exact ht _ _ _ _ hbc hab

/-! ## Subscription handles (`SubRec`, lib.rs lines 110-140) -/

/-- A running-subscription handle.  `sub` is the descriptor, `flagId`/`halt`
model the identity and state of its private `halt_flag`, and `thread` the
spawned worker (`None` until `run` is called). -/
structure SubRec (U : SubTypes) where
  sub : Desc U
  flagId : Nat
  halt : Bool
  thread : Option Nat

/-- `SubRec::new` (lines 123-129): wrap a descriptor with a freshly allocated
cancellation flag and no thread. -/
def SubRec.new (U : SubTypes) (d : Desc U) (fid : Nat) : SubRec U :=
  ⟨d, fid, false, none⟩

/-- `SubRec::run` (lines 131-135): spawn the worker thread. -/
def SubRec.runWorker (U : SubTypes) (s : SubRec U) (tid : Nat) : SubRec U :=
  { s with thread := some tid }

/-- `SubRec::stop` (lines 137-139): raise the handle's own cancellation flag.
No join, no other effect. -/
def SubRec.stop (U : SubTypes) (s : SubRec U) : SubRec U :=
  { s with halt := true }

/-- `impl PartialEq for SubRec` (lines 116-120): compare the descriptors with
`equals_a` (`self` on the left). -/
def subrecEq (U : SubTypes) (a b : SubRec U) : Bool :=
  equals_a U a.sub b.sub

/-! ## Reconciliation (`run`, lib.rs lines 205-220) -/

/-- `Iterator::position`: index of the first element satisfying `p`. -/
def position (p : α → Bool) : List α → Option Nat
  | [] => none
  | a :: l => if p a then some 0 else (position p l).map (· + 1)

/-- `Vec::swap_remove i`: replace the element at `i` by the last element and
pop the last element.  (Only ever applied in bounds.) -/
def swapRemove (l : List α) (i : Nat) : List α :=
  match l.getLast? with
  | none => l
  | some last => (l.set i last).dropLast

/-- Line 206: `new_subscriptions.into_iter().map(SubRec::new)`, allocating a
fresh cancellation flag for each desired descriptor. -/
def mkNew (U : SubTypes) : List (Desc U) → Nat → List (SubRec U)
  | [], _ => []
  | d :: rest, fid => SubRec.new U d fid :: mkNew U rest (fid + 1)

/-- Lines 207-216: `subs.retain_mut(...)`.  Walk the running handles in order;
a handle whose descriptor has a match (first `position` hit) in the current
`new_subs` is kept and the match is `swap_remove`d; otherwise the handle is
stopped (its flag raised) and dropped.  Returns the kept handles, the
remaining new handles, and the flag ids raised (in order). -/
def retainReconcile (U : SubTypes) :
    List (SubRec U) → List (SubRec U) →
      List (SubRec U) × List (SubRec U) × List Nat
  | [], newSubs => ([], newSubs, [])
  | sub :: rest, newSubs =>
    match position (fun ns => subrecEq U sub ns) newSubs with
    | some i =>
      let r := retainReconcile U rest (swapRemove newSubs i)
      (sub :: r.1, r.2.1, r.2.2)
    | none =>
      let r := retainReconcile U rest newSubs
      (r.1, r.2.1, (SubRec.stop U sub).flagId :: r.2.2)

/-- Lines 217-219: `new_subs.iter_mut().for_each(|s| s.run(...))` — start each
remaining new handle, handing it a dup of the sender and its own flag.
Returns the started handles, the next thread id, and the `(thread, flag)`
spawn events in order. -/
def runNew (U : SubTypes) : List (SubRec U) → Nat →
    List (SubRec U) × Nat × List (Nat × Nat)
  | [], nt => ([], nt, [])
  | s :: rest, nt =>
    let s' := SubRec.runWorker U s nt
    let r := runNew U rest (nt + 1)
    (s' :: r.1, r.2.1, (nt, s.flagId) :: r.2.2)

/-- Everything one reconciliation cycle produces. -/
structure PassResult (U : SubTypes) where
  kept : List (SubRec U)
  started : List (SubRec U)
  nextFlag : Nat
  nextTid : Nat
  raised : List Nat
  spawned : List (Nat × Nat)

/-- One reconciliation cycle (lines 205-220): make new handles, retain, start
the rest.  The final running set is `kept ++ started` (line 220 `append`). -/
def reconcilePass (U : SubTypes) (subs : List (SubRec U))
    (desired : List (Desc U)) (nf nt : Nat) : PassResult U :=
  let newSubs := mkNew U desired nf
  let r := retainReconcile U subs newSubs
  let s := runNew U r.2.1 nt
  ⟨r.1, s.1, nf + desired.length, s.2.1, r.2.2, s.2.2⟩

/-- The loop state that the reconciliation maintains across cycles. -/
structure SubsState (U : SubTypes) where
  subs : List (SubRec U)
  nextFlag : Nat
  nextTid : Nat

/-- Run one reconciliation cycle on the loop state. -/
def applyPass (U : SubTypes) (st : SubsState U) (desired : List (Desc U)) :
    SubsState U × PassResult U :=
  let p := reconcilePass U st.subs desired st.nextFlag st.nextTid
  (⟨p.kept ++ p.started, p.nextFlag, p.nextTid⟩, p)

/-- Drive the reconciliation through a sequence of desired-subscription sets
(the spec's `S₁, …, Sₙ`), accumulating all raised flag ids. -/
def runPasses (U : SubTypes) (st : SubsState U) :
    List (List (Desc U)) → SubsState U × List Nat
  | [] => (st, [])
  | d :: ds =>
    let a := applyPass U st d
    let r := runPasses U a.1 ds
    (r.1, a.2.raised ++ r.2)

/-- Well-formedness of the running set, true in every reachable loop state:
flag identities are distinct and below the allocation counter, and no running
handle's flag is raised. -/
def SubsInv (U : SubTypes) (st : SubsState U) : Prop :=
  (st.subs.map SubRec.flagId).Nodup ∧
  (∀ s ∈ st.subs, s.flagId < st.nextFlag) ∧
  (∀ s ∈ st.subs, s.halt = false)

/-- No two running handles have erased-equal descriptors. -/
def NoDupEq (U : SubTypes) (l : List (SubRec U)) : Prop :=
  l.Pairwise (fun a b => equals_a U a.sub b.sub = false)

/-- No two descriptors of a desired set are erased-equal (i.e. the desired
list really is a set). -/
def NoDupEqD (U : SubTypes) (l : List (Desc U)) : Prop :=
  l.Pairwise (fun a b => equals_a U a b = false)

/-- A flag id the loop no longer holds: below the allocation counter and
carried by no running handle. -/
def GoneFlag (U : SubTypes) (f : Nat) (st : SubsState U) : Prop :=
  f < st.nextFlag ∧ f ∉ st.subs.map SubRec.flagId

/-! ## The main loop (`run`, lib.rs lines 167-229)

Commands are opaque one-shot tasks; the loop only ever spawns them, so a
command is represented by an identifier (`Nat`).  The observable behaviour of
a run is its trace of events. -/

/-- Observable events of a run.  `render` carries the model handed to `view`;
`spawnSub` carries the worker's thread id and the id of the cancellation flag
handed to it. -/
inductive Ev (T : Type) where
  | spawnCmd (c : Nat)
  | render (model : T)
  | recvMsg
  | updateCall
  | reconcile
  | raiseFlag (fid : Nat)
  | spawnSub (tid : Nat) (fid : Nat)
deriving DecidableEq

/-- `Message` (lib.rs lines 65-68). -/
inductive Msg (M E : Type) where
  | userEvent (m : M)
  | crosstermEvent (e : E)

/-- `RusteyApp` (lib.rs lines 79-85).  `update` receives the current state of
the quit flag and reports whether it raised it; `view` may mutate the model
(it receives `&mut`). -/
structure RusteyApp (U : SubTypes) (T M E : Type) where
  init : T × Option Nat
  map_event : T → E → Option M
  update : T → M → Bool → T × Option Nat × Bool
  subscriptions : T → List (Desc U)
  view : T → T

/-- The loop-owned mutable state of `run`. -/
structure RunState (U : SubTypes) (T : Type) where
  model : T
  cmd : Option Nat
  quit : Bool
  subs : List (SubRec U)
  nextFlag : Nat
  nextTid : Nat

/-- `handle` (lib.rs lines 142-151): a present command spawns exactly one
background task (with a dup of the sender and no cancellation flag); an absent
command does nothing. -/
def handle (T : Type) (cmd : Option Nat) : List (Ev T) :=
  match cmd with
  | some c => [Ev.spawnCmd c]
  | none => []

/-- Lines 194-197: translate a received channel message, via `map_event` for
external events, identity for user messages. -/
def resolveMsg (U : SubTypes) (T M E : Type) (app : RusteyApp U T M E)
    (model : T) (msg : Msg M E) : Option M :=
  match msg with
  | .crosstermEvent e => app.map_event model e
  | .userEvent m => some m

/-- The events of one reconciliation cycle: the stops of the retain phase, in
order, then the starts.  (The code runs `retain_mut` to completion before any
`run`.) -/
def passEvents (T : Type) (U : SubTypes) (p : PassResult U) : List (Ev T) :=
  p.raised.map Ev.raiseFlag ++ p.spawned.map (fun x => Ev.spawnSub x.1 x.2)

/-- Event classifier: is this a command spawn? -/
def isSpawnCmdEv (T : Type) : Ev T → Bool
  | Ev.spawnCmd _ => true
  | _ => false

/-- Event classifier: is this a cancellation-flag raise? -/
def isRaiseEv (T : Type) : Ev T → Bool
  | Ev.raiseFlag _ => true
  | _ => false

/-- One iteration of the `loop` (lines 190-225): dispatch the pending command,
render, receive one message, translate it, update (if a message resulted),
reconcile subscriptions.  Returns the new state and the iteration's trace; the
caller checks `quit` (line 222). -/
def iterate (U : SubTypes) (T M E : Type) (app : RusteyApp U T M E)
    (st : RunState U T) (msg : Msg M E) : RunState U T × List (Ev T) :=
  let cmdEvs := handle T st.cmd
  let model1 := app.view st.model
  let msgOpt := resolveMsg U T M E app model1 msg
  let step : T × Option Nat × Bool × List (Ev T) :=
    match msgOpt with
    | some m =>
      let u := app.update model1 m st.quit
      (u.1, u.2.1, st.quit || u.2.2, [Ev.updateCall])
    | none => (model1, none, st.quit, [])
  let desired := app.subscriptions step.1
  let p := reconcilePass U st.subs desired st.nextFlag st.nextTid
  (⟨step.1, step.2.1, step.2.2.1, p.kept ++ p.started, p.nextFlag, p.nextTid⟩,
    cmdEvs ++ [Ev.render st.model, Ev.recvMsg] ++ step.2.2.2 ++
      Ev.reconcile :: passEvents T U p)

/-- The `loop` of lines 190-225, fed by a finite stream of channel messages
(the loop blocks forever at `recv` when the stream is exhausted, so the trace
is truncated there).  The `break` of line 223 fires at the end of an
iteration when the quit flag was raised. -/
def runLoop (U : SubTypes) (T M E : Type) (app : RusteyApp U T M E)
    (st : RunState U T) : List (Msg M E) → RunState U T × List (Ev T)
  | [] => (st, [])
  | msg :: rest =>
    let a := iterate U T M E app st msg
    if a.1.quit then a
    else
      let r := runLoop U T M E app a.1 rest
      (r.1, a.2 ++ r.2)

/-- Lines 171-188: obtain the initial model and command, compute the initial
subscriptions, wrap each in a new handle and start them all. -/
def initRun (U : SubTypes) (T M E : Type) (app : RusteyApp U T M E) :
    RunState U T × List (Ev T) :=
  let descs := app.subscriptions app.init.1
  let newSubs := mkNew U descs 0
  let s := runNew U newSubs 0
  (⟨app.init.1, app.init.2, false, s.1, descs.length, s.2.1⟩,
    s.2.2.map (fun x => Ev.spawnSub x.1 x.2))

/-- `run` (lines 167-229): initialization followed by the loop. -/
def rusteyRun (U : SubTypes) (T M E : Type) (app : RusteyApp U T M E)
    (msgs : List (Msg M E)) : RunState U T × List (Ev T) :=
  let a := initRun U T M E app
  let r := runLoop U T M E app a.1 msgs
  (r.1, a.2 ++ r.2)

/-! ## Decidability instances and concrete instantiations for witnesses -/

instance (U : SubTypes) : DecidableEq U.Tag := U.deq

instance (U : SubTypes) [∀ t, DecidableEq (U.Val t)] : DecidableEq (Desc U) :=
  inferInstanceAs (DecidableEq (Σ t, U.Val t))

/-- A single application-defined descriptor type: plain `Nat` with its
(derived, lawful) structural equality. -/
@[reducible] def natU : SubTypes :=
  ⟨Unit, inferInstance, fun _ => Nat, fun _ x y => decide (x = y)⟩

/-- A descriptor type with a lawful but never-true `PartialEq` (legal in
Rust: symmetric and transitive, merely irreflexive, like a NaN-holding
type). -/
@[reducible] def falseU : SubTypes :=
  ⟨Unit, inferInstance, fun _ => Nat, fun _ _ _ => false⟩

/-- Two distinct application-defined descriptor types. -/
@[reducible] def twoVal : Bool → Type
  | true => Nat
  | false => Bool

@[reducible] def twoPeq : (t : Bool) → twoVal t → twoVal t → Bool
  | true, x, y => decide (x = y)
  | false, x, y => decide (x = y)

@[reducible] def twoU : SubTypes := ⟨Bool, inferInstance, twoVal, twoPeq⟩

def descA : Desc natU := ⟨(), (5 : Nat)⟩

def descB : Desc natU := ⟨(), (7 : Nat)⟩

def descF : Desc falseU := ⟨(), (5 : Nat)⟩

def twoDN : Desc twoU := ⟨true, (3 : Nat)⟩

def twoDN' : Desc twoU := ⟨true, (4 : Nat)⟩

def twoDB : Desc twoU := ⟨false, true⟩

/-- An application whose `subscriptions` returns the same descriptor twice. -/
def app5 : RusteyApp natU Unit Unit Unit :=
  ⟨((), none), fun _ _ => none, fun _ _ _ => ((), none, false),
   fun _ => [descA, descA], fun m => m⟩

/-- An application with one constant subscription whose `update` raises the
quit flag. -/
def app6 : RusteyApp natU Unit Unit Unit :=
  ⟨((), none), fun _ _ => none, fun _ _ _ => ((), none, true),
   fun _ => [descA], fun m => m⟩

/-- An application whose `map_event` ignores every external event, with one
constant subscription of the never-equal descriptor type. -/
def app7 : RusteyApp falseU Nat Unit Unit :=
  ⟨(3, none), fun _ _ => none, fun m _ _ => (m, none, false),
   fun _ => [descF], fun m => m⟩

/-- An application whose `update` returns a command and raises the quit flag
in the same call. -/
def app8 : RusteyApp natU Unit Unit Unit :=
  ⟨((), none), fun _ _ => none, fun _ _ _ => ((), some 42, true),
   fun _ => [], fun m => m⟩

/-! ## Helper lemmas about `position`, `swapRemove` and counting -/

section ListHelpers

variable {α : Type _}

theorem position_eq_none_iff (p : α → Bool) (l : List α) :
    position p l = none ↔ ∀ x ∈ l, p x = false := by
  induction l with
  | nil => simp [position]
  | cons a l ih =>
    cases hpa : p a with
    | true => simp [position, hpa]
    | false => simp [position, hpa, ih, List.forall_mem_cons]

theorem position_eq_some_spec (p : α → Bool) :
    ∀ (l : List α) (i : Nat), position p l = some i →
      ∃ hi : i < l.length, p (l.get ⟨i, hi⟩) = true := by
  intro l
  induction l with
  | nil => intro i h; simp [position] at h
  | cons a l ih =>
    intro i h
    cases hpa : p a with
    | true =>
      simp only [position, hpa, if_true, Option.some.injEq] at h
      subst h
      exact ⟨by simp, by simpa using hpa⟩
    | false =>
      simp only [position, hpa] at h
      cases hpl : position p l with
      | none => rw [hpl] at h; simp at h
      | some j =>
        rw [hpl] at h
        simp only [Bool.false_eq_true, if_false, Option.map_some',
          Option.some.injEq] at h
        subst h
        obtain ⟨hlt, hpj⟩ := ih j hpl
        exact ⟨by simpa using Nat.succ_lt_succ hlt, by simpa using hpj⟩

theorem position_isSome_of_mem (p : α → Bool) {l : List α} {x : α}
    (hx : x ∈ l) (hp : p x = true) : ∃ i, position p l = some i := by
  induction l with
  | nil => cases hx
  | cons a l ih =>
    by_cases hpa : p a
    · exact ⟨0, by simp [position, hpa]⟩
    · rcases List.mem_cons.1 hx with rfl | hx'
      · exact absurd hp hpa
      · obtain ⟨i, hi⟩ := ih hx'
        exact ⟨i + 1, by simp [position, hpa, hi]⟩

theorem dropLast_cons_ne (a : α) (l : List α) (h : l ≠ []) :
    (a :: l).dropLast = a :: l.dropLast := by
  cases l with
  | nil => exact absurd rfl h
  | cons b l' => rfl

theorem swapRemove_perm (l : List α) (i : Nat) (h : i < l.length) :
    (swapRemove l i).Perm (l.eraseIdx i) := by
  induction l generalizing i with
  | nil => simp at h
  | cons a l ih =>
    cases i with
    | zero =>
      cases l with
      | nil => simp [swapRemove]
      | cons b l' =>
        have hne : b :: l' ≠ [] := by simp
        have hlast : (a :: b :: l').getLast? =
            some ((b :: l').getLast hne) := by
          rw [List.getLast?_eq_getLast (a :: b :: l') (by simp),
            List.getLast_cons hne]
        have hstep : swapRemove (a :: b :: l') 0 =
            ((b :: l').getLast hne) :: (b :: l').dropLast := by
          unfold swapRemove
          rw [hlast]
          rfl
        rw [hstep, show (a :: b :: l').eraseIdx 0 = b :: l' from rfl]
        have hperm : ((b :: l').getLast hne :: (b :: l').dropLast).Perm
            ((b :: l').dropLast ++ [(b :: l').getLast hne]) :=
          (List.perm_append_singleton _ _).symm
        have hsplit : (b :: l').dropLast ++ [(b :: l').getLast hne] =
            b :: l' := List.dropLast_append_getLast hne
        exact hperm.trans (by rw [hsplit])
    | succ i =>
      cases l with
      | nil => simp at h
      | cons b l' =>
        have hne : b :: l' ≠ [] := by simp
        have hlast : (a :: b :: l').getLast? =
            some ((b :: l').getLast hne) := by
          rw [List.getLast?_eq_getLast (a :: b :: l') (by simp),
            List.getLast_cons hne]
        have hlast' : (b :: l').getLast? = some ((b :: l').getLast hne) :=
          List.getLast?_eq_getLast _ hne
        have hi' : i < (b :: l').length := by
          simpa using Nat.lt_of_succ_lt_succ h
        have hsetne : (b :: l').set i ((b :: l').getLast hne) ≠ [] := by
          intro hc
          have hlen := congrArg List.length hc
          simp at hlen
        have hstep : swapRemove (a :: b :: l') (i + 1) =
            a :: swapRemove (b :: l') i := by
          unfold swapRemove
          rw [hlast, hlast']
          show ((a :: b :: l').set (i + 1) _).dropLast = _
          rw [List.set_cons_succ, dropLast_cons_ne _ _ hsetne]
        rw [hstep, show (a :: b :: l').eraseIdx (i + 1) =
          a :: (b :: l').eraseIdx i from rfl]
        exact List.Perm.cons a (ih i hi')

theorem mem_eraseIdx_of_ne (x : α) :
    ∀ (l : List α) (i : Nat) (h : i < l.length),
      x ∈ l → l.get ⟨i, h⟩ ≠ x → x ∈ l.eraseIdx i := by
  intro l
  induction l with
  | nil => intro i h; simp at h
  | cons a l ih =>
    intro i h hx hne
    match i with
    | 0 =>
      rcases List.mem_cons.1 hx with rfl | hx'
      · exact absurd rfl hne
      · simpa [List.eraseIdx] using hx'
    | i + 1 =>
      rcases List.mem_cons.1 hx with rfl | hx'
      · simp [List.eraseIdx]
      · have : x ∈ l.eraseIdx i :=
          ih i (by simpa using Nat.lt_of_succ_lt_succ h) hx' (by simpa using hne)
        simp [List.eraseIdx, this]

theorem mem_swapRemove_of_ne (x : α) (l : List α) (i : Nat) (h : i < l.length)
    (hx : x ∈ l) (hne : l.get ⟨i, h⟩ ≠ x) : x ∈ swapRemove l i :=
  ((swapRemove_perm l i h).mem_iff).2 (mem_eraseIdx_of_ne x l i h hx hne)

theorem mem_of_mem_swapRemove (x : α) (l : List α) (i : Nat)
    (h : i < l.length) (hx : x ∈ swapRemove l i) : x ∈ l :=
  (l.eraseIdx_sublist i).subset (((swapRemove_perm l i h).mem_iff).1 hx)

theorem countP_eraseIdx (p : α → Bool) :
    ∀ (l : List α) (i : Nat) (h : i < l.length),
      (l.eraseIdx i).countP p + (bif p (l.get ⟨i, h⟩) then 1 else 0) =
        l.countP p := by
  intro l
  induction l with
  | nil => intro i h; simp at h
  | cons a l ih =>
    intro i h
    match i with
    | 0 =>
      simp only [List.eraseIdx, List.get, List.countP_cons]
      cases hpa : p a <;> simp [hpa]
    | i + 1 =>
      have hi : i < l.length := by simpa using Nat.lt_of_succ_lt_succ h
      have hrec := ih i hi
      simp only [List.eraseIdx, List.countP_cons, List.get_eq_getElem,
        List.getElem_cons_succ] at hrec ⊢
      cases hpa : p a <;> simp [hpa] <;> omega

theorem countP_swapRemove (p : α → Bool) (l : List α) (i : Nat)
    (h : i < l.length) :
    (swapRemove l i).countP p + (bif p (l.get ⟨i, h⟩) then 1 else 0) =
      l.countP p := by
  rw [(swapRemove_perm l i h).countP_eq]
  exact countP_eraseIdx p l i h

theorem nodup_map_swapRemove (f : α → β) (l : List α) (i : Nat)
    (h : i < l.length) (hn : (l.map f).Nodup) :
    ((swapRemove l i).map f).Nodup := by
  have hperm : ((swapRemove l i).map f).Perm ((l.eraseIdx i).map f) :=
    (swapRemove_perm l i h).map f
  have hsub : ((l.eraseIdx i).map f).Sublist (l.map f) :=
    (l.eraseIdx_sublist i).map f
  exact hperm.nodup_iff.2 (hn.sublist hsub)

theorem subperm_map (f : α → β) {l₁ l₂ : List α} (h : l₁.Subperm l₂) :
    (l₁.map f).Subperm (l₂.map f) := by
  obtain ⟨l, hperm, hsub⟩ := h
  exact ⟨l.map f, hperm.map f, hsub.map f⟩

end ListHelpers

/-! ## Lemmas about `mkNew` and `runNew` -/

theorem mkNew_map_sub (U : SubTypes) :
    ∀ (ds : List (Desc U)) (nf : Nat),
      (mkNew U ds nf).map SubRec.sub = ds := by
  intro ds
  induction ds with
  | nil => intro nf; rfl
  | cons d rest ih => intro nf; simp [mkNew, SubRec.new, ih]

theorem mkNew_map_flagId (U : SubTypes) :
    ∀ (ds : List (Desc U)) (nf : Nat),
      (mkNew U ds nf).map SubRec.flagId = List.range' nf ds.length := by
  intro ds
  induction ds with
  | nil => intro nf; rfl
  | cons d rest ih =>
    intro nf
    simp [mkNew, SubRec.new, ih, List.range'_succ]

theorem mkNew_flagId_nodup (U : SubTypes) (ds : List (Desc U)) (nf : Nat) :
    ((mkNew U ds nf).map SubRec.flagId).Nodup := by
  rw [mkNew_map_flagId]
  exact List.nodup_range' _ _

theorem mkNew_fields (U : SubTypes) :
    ∀ (ds : List (Desc U)) (nf : Nat), ∀ h ∈ mkNew U ds nf,
      nf ≤ h.flagId ∧ h.flagId < nf + ds.length ∧ h.halt = false ∧
        h.thread = none := by
  intro ds
  induction ds with
  | nil => intro nf h hh; cases hh
  | cons d rest ih =>
    intro nf h hh
    rcases List.mem_cons.1 hh with rfl | hh'
    · refine ⟨Nat.le_refl _, ?_, rfl, rfl⟩
      simp only [SubRec.new, List.length_cons]
      omega
    · obtain ⟨h1, h2, h3, h4⟩ := ih (nf + 1) h hh'
      exact ⟨Nat.le_of_succ_le h1, by simp only [List.length_cons]; omega,
        h3, h4⟩

theorem mkNew_countP (U : SubTypes) (q : Desc U → Bool)
    (ds : List (Desc U)) (nf : Nat) :
    (mkNew U ds nf).countP (fun h => q h.sub) = ds.countP q := by
  have := congrArg (List.countP q) (mkNew_map_sub U ds nf)
  simpa [List.countP_map, Function.comp] using this

theorem mkNew_pairwise (U : SubTypes) (R : Desc U → Desc U → Prop)
    (ds : List (Desc U)) (nf : Nat) (h : ds.Pairwise R) :
    (mkNew U ds nf).Pairwise (fun a b => R a.sub b.sub) := by
  have h' : ((mkNew U ds nf).map SubRec.sub).Pairwise R := by
    rw [mkNew_map_sub]; exact h
  exact (List.pairwise_map).1 h'

theorem runNew_fst_map_flagId (U : SubTypes) :
    ∀ (l : List (SubRec U)) (nt : Nat),
      (runNew U l nt).1.map SubRec.flagId = l.map SubRec.flagId := by
  intro l
  induction l with
  | nil => intro nt; rfl
  | cons s rest ih => intro nt; simp [runNew, SubRec.runWorker, ih]

theorem runNew_spawned_map_snd (U : SubTypes) :
    ∀ (l : List (SubRec U)) (nt : Nat),
      (runNew U l nt).2.2.map Prod.snd = l.map SubRec.flagId := by
  intro l
  induction l with
  | nil => intro nt; rfl
  | cons s rest ih => intro nt; simp [runNew, ih]

theorem runNew_mem_fst (U : SubTypes) :
    ∀ (l : List (SubRec U)) (nt : Nat), ∀ h ∈ (runNew U l nt).1,
      ∃ h0 ∈ l, h.sub = h0.sub ∧ h.flagId = h0.flagId ∧ h.halt = h0.halt ∧
        ∃ t, nt ≤ t ∧ h.thread = some t := by
  intro l
  induction l with
  | nil => intro nt h hh; cases hh
  | cons s rest ih =>
    intro nt h hh
    rcases List.mem_cons.1 hh with rfl | hh'
    · exact ⟨s, List.mem_cons_self _ _, rfl, rfl, rfl, nt, Nat.le_refl _, rfl⟩
    · obtain ⟨h0, hm, e1, e2, e3, t, ht, e4⟩ := ih (nt + 1) h hh'
      exact ⟨h0, List.mem_cons_of_mem _ hm, e1, e2, e3, t,
        Nat.le_of_succ_le ht, e4⟩

theorem runNew_countP_sub (U : SubTypes) (q : SubRec U → Bool)
    (hq : ∀ s t, q (SubRec.runWorker U s t) = q s) :
    ∀ (l : List (SubRec U)) (nt : Nat),
      (runNew U l nt).1.countP q = l.countP q := by
  intro l
  induction l with
  | nil => intro nt; rfl
  | cons s rest ih =>
    intro nt
    simp [runNew, List.countP_cons, ih, hq]

theorem runNew_pairwise (U : SubTypes) (R : Desc U → Desc U → Prop) :
    ∀ (l : List (SubRec U)) (nt : Nat),
      l.Pairwise (fun a b => R a.sub b.sub) →
      (runNew U l nt).1.Pairwise (fun a b => R a.sub b.sub) := by
  intro l
  induction l with
  | nil => intro nt _; exact List.Pairwise.nil
  | cons s rest ih =>
    intro nt hp
    rcases List.pairwise_cons.1 hp with ⟨hhead, htail⟩
    refine List.pairwise_cons.2 ⟨?_, ih (nt + 1) htail⟩
    intro b hb
    obtain ⟨h0, hm, e1, _, _, _, _, _⟩ := runNew_mem_fst U rest (nt + 1) b hb
    rw [e1]
    exact hhead h0 hm

/-! ## Lemmas about the retain phase -/

theorem retainReconcile_cons_some (U : SubTypes) (s : SubRec U)
    (rest ns : List (SubRec U)) (i : Nat)
    (hpos : position (fun x => subrecEq U s x) ns = some i) :
    retainReconcile U (s :: rest) ns =
      (s :: (retainReconcile U rest (swapRemove ns i)).1,
       (retainReconcile U rest (swapRemove ns i)).2.1,
       (retainReconcile U rest (swapRemove ns i)).2.2) := by
  conv_lhs => unfold retainReconcile
  rw [hpos]

theorem retainReconcile_cons_none (U : SubTypes) (s : SubRec U)
    (rest ns : List (SubRec U))
    (hpos : position (fun x => subrecEq U s x) ns = none) :
    retainReconcile U (s :: rest) ns =
      ((retainReconcile U rest ns).1,
       (retainReconcile U rest ns).2.1,
       s.flagId :: (retainReconcile U rest ns).2.2) := by
  conv_lhs => unfold retainReconcile
  rw [hpos]
  rfl

theorem rr_kept_sublist (U : SubTypes) :
    ∀ (subs ns : List (SubRec U)),
      (retainReconcile U subs ns).1.Sublist subs := by
  intro subs
  induction subs with
  | nil => intro ns; simp [retainReconcile]
  | cons sub rest ih =>
    intro ns
    unfold retainReconcile
    cases hpos : position (fun x => subrecEq U sub x) ns with
    | some i => exact List.Sublist.cons₂ sub (ih (swapRemove ns i))
    | none => exact List.Sublist.cons sub (ih ns)

theorem rr_raised_sublist (U : SubTypes) :
    ∀ (subs ns : List (SubRec U)),
      (retainReconcile U subs ns).2.2.Sublist (subs.map SubRec.flagId) := by
  intro subs
  induction subs with
  | nil => intro ns; simp [retainReconcile]
  | cons sub rest ih =>
    intro ns
    unfold retainReconcile
    cases hpos : position (fun x => subrecEq U sub x) ns with
    | some i => exact List.Sublist.cons sub.flagId (ih (swapRemove ns i))
    | none => exact List.Sublist.cons₂ sub.flagId (ih ns)

theorem rr_countP_partition (U : SubTypes) (p : Nat → Bool) :
    ∀ (subs ns : List (SubRec U)),
      ((retainReconcile U subs ns).1.map SubRec.flagId).countP p +
        (retainReconcile U subs ns).2.2.countP p =
      (subs.map SubRec.flagId).countP p := by
  intro subs
  induction subs with
  | nil => intro ns; simp [retainReconcile]
  | cons sub rest ih =>
    intro ns
    unfold retainReconcile
    cases hpos : position (fun x => subrecEq U sub x) ns with
    | some i =>
      simp only [List.map_cons, List.countP_cons]
      have := ih (swapRemove ns i)
      omega
    | none =>
      simp only [List.map_cons, List.countP_cons, SubRec.stop]
      have := ih ns
      omega

theorem rr_rem_subperm (U : SubTypes) :
    ∀ (subs ns : List (SubRec U)),
      (retainReconcile U subs ns).2.1.Subperm ns := by
  intro subs
  induction subs with
  | nil => intro ns; exact List.Subperm.refl ns
  | cons sub rest ih =>
    intro ns
    cases hpos : position (fun x => subrecEq U sub x) ns with
    | some i =>
      obtain ⟨hi, _⟩ := position_eq_some_spec _ ns i hpos
      rw [retainReconcile_cons_some U sub rest ns i hpos]
      exact (ih (swapRemove ns i)).trans
        (((swapRemove_perm ns i hi).subperm).trans
          ((ns.eraseIdx_sublist i).subperm))
    | none =>
      rw [retainReconcile_cons_none U sub rest ns hpos]
      exact ih ns

theorem rr_mem_rem (U : SubTypes) (subs ns : List (SubRec U)) :
    ∀ x ∈ (retainReconcile U subs ns).2.1, x ∈ ns :=
  fun _ hx => (rr_rem_subperm U subs ns).subset hx

theorem rr_rem_countP_le (U : SubTypes) (subs ns : List (SubRec U))
    (p : SubRec U → Bool) :
    (retainReconcile U subs ns).2.1.countP p ≤ ns.countP p :=
  (rr_rem_subperm U subs ns).countP_le p

/-- A running handle with no match anywhere in the new set is stopped: its
flag id is raised. -/
theorem rr_stop_mem (U : SubTypes) (sub : SubRec U) :
    ∀ (subs ns : List (SubRec U)), sub ∈ subs →
      (∀ x ∈ ns, subrecEq U sub x = false) →
      sub.flagId ∈ (retainReconcile U subs ns).2.2 := by
  intro subs
  induction subs with
  | nil => intro ns h; cases h
  | cons s rest ih =>
    intro ns hmem hno
    rcases List.mem_cons.1 hmem with rfl | hmem'
    · have hnone : position (fun x => subrecEq U sub x) ns = none :=
        (position_eq_none_iff _ _).2 hno
      unfold retainReconcile
      rw [hnone]
      exact List.mem_cons_self _ _
    · unfold retainReconcile
      cases hpos : position (fun x => subrecEq U s x) ns with
      | some i =>
        obtain ⟨hi, _⟩ := position_eq_some_spec _ ns i hpos
        exact ih (swapRemove ns i) hmem'
          (fun x hx => hno x (mem_of_mem_swapRemove x ns i hi hx))
      | none =>
        exact List.mem_cons_of_mem _ (ih ns hmem' hno)

/-- Elements of the new set that no running handle matches survive the retain
phase with multiplicity intact. -/
theorem rr_rem_countP_eq (U : SubTypes) (q : SubRec U → Bool) :
    ∀ (subs ns : List (SubRec U)),
      (∀ s ∈ subs, ∀ x ∈ ns, q x = true → subrecEq U s x = false) →
      (retainReconcile U subs ns).2.1.countP q = ns.countP q := by
  intro subs
  induction subs with
  | nil => intro ns _; simp [retainReconcile]
  | cons s rest ih =>
    intro ns hq
    unfold retainReconcile
    cases hpos : position (fun x => subrecEq U s x) ns with
    | some i =>
      obtain ⟨hi, hmatch⟩ := position_eq_some_spec _ ns i hpos
      have hqget : q (ns.get ⟨i, hi⟩) = false := by
        cases hqg : q (ns.get ⟨i, hi⟩) with
        | false => rfl
        | true =>
          have := hq s (List.mem_cons_self _ _) (ns.get ⟨i, hi⟩)
            (ns.get_mem _ _) hqg
          rw [this] at hmatch
          cases hmatch
      have hcount : (swapRemove ns i).countP q = ns.countP q := by
        have := countP_swapRemove q ns i hi
        rw [hqget] at this
        simpa using this
      rw [ih (swapRemove ns i) (fun s' hs' x hx hqx =>
        hq s' (List.mem_cons_of_mem _ hs') x
          (mem_of_mem_swapRemove x ns i hi hx) hqx)]
      exact hcount
    | none =>
      exact ih ns (fun s' hs' x hx hqx =>
        hq s' (List.mem_cons_of_mem _ hs') x hx hqx)

/-- A running handle that has a match in the new set — provided no earlier
running handle matches that same new element — is kept, verbatim. -/
theorem rr_keep (U : SubTypes) (sub nsd : SubRec U) :
    ∀ (pre : List (SubRec U)) (post : List (SubRec U))
      (ns : List (SubRec U)),
      ((ns.map SubRec.flagId).Nodup) → nsd ∈ ns →
      subrecEq U sub nsd = true →
      (∀ s ∈ pre, subrecEq U s nsd = false) →
      sub ∈ (retainReconcile U (pre ++ sub :: post) ns).1 := by
  intro pre
  induction pre with
  | nil =>
    intro post ns _ hmem hmatch _
    obtain ⟨i, hpos⟩ := position_isSome_of_mem
      (fun x => subrecEq U sub x) hmem hmatch
    simp only [List.nil_append]
    unfold retainReconcile
    rw [hpos]
    exact List.mem_cons_self _ _
  | cons s pre' ih =>
    intro post ns hnodup hmem hmatch hpre
    have hsns : subrecEq U s nsd = false := hpre s (List.mem_cons_self _ _)
    simp only [List.cons_append]
    unfold retainReconcile
    cases hpos : position (fun x => subrecEq U s x) ns with
    | some i =>
      obtain ⟨hi, hmatchi⟩ := position_eq_some_spec _ ns i hpos
      have hne : ns.get ⟨i, hi⟩ ≠ nsd := by
        intro hc
        rw [hc] at hmatchi
        rw [hsns] at hmatchi
        cases hmatchi
      have hmem' : nsd ∈ swapRemove ns i :=
        mem_swapRemove_of_ne nsd ns i hi hmem hne
      have hnodup' : ((swapRemove ns i).map SubRec.flagId).Nodup :=
        nodup_map_swapRemove SubRec.flagId ns i hi hnodup
      exact List.mem_cons_of_mem _ (ih post (swapRemove ns i) hnodup' hmem'
        hmatch (fun x hx => hpre x (List.mem_cons_of_mem _ hx)))
    | none =>
      exact ih post ns hnodup hmem hmatch
        (fun x hx => hpre x (List.mem_cons_of_mem _ hx))

/-- Every kept handle consumed one matching element of the new set: that
element is gone from the remainder (tracked by flag id, which is unique in
the new set). -/
theorem rr_kept_match (U : SubTypes) :
    ∀ (subs ns : List (SubRec U)), ((ns.map SubRec.flagId).Nodup) →
      ∀ k ∈ (retainReconcile U subs ns).1,
        ∃ m ∈ ns, subrecEq U k m = true ∧
          ∀ x ∈ (retainReconcile U subs ns).2.1, x.flagId ≠ m.flagId := by
  intro subs
  induction subs with
  | nil => intro ns _ k hk; cases hk
  | cons s rest ih =>
    intro ns hnodup k hk
    cases hpos : position (fun x => subrecEq U s x) ns with
    | some i =>
      obtain ⟨hi, hmatchi⟩ := position_eq_some_spec _ ns i hpos
      have heq := retainReconcile_cons_some U s rest ns i hpos
      have hnodup' : ((swapRemove ns i).map SubRec.flagId).Nodup :=
        nodup_map_swapRemove SubRec.flagId ns i hi hnodup
      rw [heq] at hk
      rw [heq]
      rcases List.mem_cons.1 hk with rfl | hk'
      · refine ⟨ns.get ⟨i, hi⟩, ns.get_mem _ _, hmatchi, ?_⟩
        intro x hx hfid
        have hmemget : ns.get ⟨i, hi⟩ ∈ ns := ns.get_mem _ _
        have hcount1 : ns.countP
            (fun y => y.flagId == (ns.get ⟨i, hi⟩).flagId) = 1 := by
          have hmap : ns.countP
              (fun y => y.flagId == (ns.get ⟨i, hi⟩).flagId) =
              (ns.map SubRec.flagId).count ((ns.get ⟨i, hi⟩).flagId) := by
            rw [List.count, List.countP_map]
            rfl
          rw [hmap]
          have hmemf : (ns.get ⟨i, hi⟩).flagId ∈ ns.map SubRec.flagId :=
            List.mem_map_of_mem SubRec.flagId hmemget
          have hle := List.nodup_iff_count_le_one.1 hnodup
            ((ns.get ⟨i, hi⟩).flagId)
          have hge := List.count_pos_iff.2 hmemf
          omega
        have hsw := countP_swapRemove
          (fun y => y.flagId == (ns.get ⟨i, hi⟩).flagId) ns i hi
        simp only [beq_self_eq_true, cond_true] at hsw
        have hrem_le := rr_rem_countP_le U rest (swapRemove ns i)
          (fun y => y.flagId == (ns.get ⟨i, hi⟩).flagId)
        have hposx : 0 <
            (retainReconcile U rest (swapRemove ns i)).2.1.countP
              (fun y => y.flagId == (ns.get ⟨i, hi⟩).flagId) :=
          List.countP_pos_iff.2 ⟨x, hx, by simp [hfid]⟩
        omega
      · obtain ⟨m, hm, hmm, hrem⟩ := ih (swapRemove ns i) hnodup' k hk'
        exact ⟨m, mem_of_mem_swapRemove m ns i hi hm, hmm, hrem⟩
    | none =>
      have heq := retainReconcile_cons_none U s rest ns hpos
      rw [heq] at hk
      rw [heq]
      exact ih ns hnodup k hk

/-! ## Pass-level lemmas -/

theorem reconcilePass_kept (U : SubTypes) (subs : List (SubRec U))
    (desired : List (Desc U)) (nf nt : Nat) :
    (reconcilePass U subs desired nf nt).kept =
      (retainReconcile U subs (mkNew U desired nf)).1 := rfl

theorem reconcilePass_started (U : SubTypes) (subs : List (SubRec U))
    (desired : List (Desc U)) (nf nt : Nat) :
    (reconcilePass U subs desired nf nt).started =
      (runNew U (retainReconcile U subs (mkNew U desired nf)).2.1 nt).1 := rfl

theorem reconcilePass_raised (U : SubTypes) (subs : List (SubRec U))
    (desired : List (Desc U)) (nf nt : Nat) :
    (reconcilePass U subs desired nf nt).raised =
      (retainReconcile U subs (mkNew U desired nf)).2.2 := rfl

theorem reconcilePass_spawned (U : SubTypes) (subs : List (SubRec U))
    (desired : List (Desc U)) (nf nt : Nat) :
    (reconcilePass U subs desired nf nt).spawned =
      (runNew U (retainReconcile U subs (mkNew U desired nf)).2.1 nt).2.2 := rfl

theorem mkNew_mem_sub (U : SubTypes) (ds : List (Desc U)) (nf : Nat)
    (x : SubRec U) (hx : x ∈ mkNew U ds nf) : x.sub ∈ ds := by
  have := List.mem_map_of_mem SubRec.sub hx
  rwa [mkNew_map_sub] at this

/-- Flag ids of the handles started by a pass lie in the fresh range. -/
theorem pass_started_fid_bounds (U : SubTypes) (st : SubsState U)
    (D : List (Desc U)) :
    ∀ f ∈ (reconcilePass U st.subs D st.nextFlag st.nextTid).started.map
      SubRec.flagId, st.nextFlag ≤ f ∧ f < st.nextFlag + D.length := by
  intro f hf
  rw [reconcilePass_started, runNew_fst_map_flagId] at hf
  have hsub : f ∈ (mkNew U D st.nextFlag).map SubRec.flagId :=
    (subperm_map SubRec.flagId
      (rr_rem_subperm U st.subs (mkNew U D st.nextFlag))).subset hf
  rw [mkNew_map_flagId] at hsub
  have := List.mem_range'_1.1 hsub
  omega

theorem pass_started_fid_nodup (U : SubTypes) (st : SubsState U)
    (D : List (Desc U)) :
    ((reconcilePass U st.subs D st.nextFlag st.nextTid).started.map
      SubRec.flagId).Nodup := by
  rw [reconcilePass_started, runNew_fst_map_flagId]
  have hsp : ((retainReconcile U st.subs (mkNew U D st.nextFlag)).2.1.map
      SubRec.flagId).Subperm ((mkNew U D st.nextFlag).map SubRec.flagId) :=
    subperm_map SubRec.flagId (rr_rem_subperm U st.subs (mkNew U D st.nextFlag))
  obtain ⟨l', hperm, hsubl⟩ := hsp
  exact hperm.nodup_iff.1 ((mkNew_flagId_nodup U D st.nextFlag).sublist hsubl)

theorem pass_kept_fid_lt (U : SubTypes) (st : SubsState U)
    (D : List (Desc U)) (hinv : SubsInv U st) :
    ∀ s ∈ (reconcilePass U st.subs D st.nextFlag st.nextTid).kept,
      s.flagId < st.nextFlag := by
  intro s hs
  rw [reconcilePass_kept] at hs
  exact hinv.2.1 s ((rr_kept_sublist U st.subs _).subset hs)

/-- The loop invariant is preserved by every reconciliation cycle. -/
theorem applyPass_inv (U : SubTypes) (st : SubsState U) (D : List (Desc U))
    (hinv : SubsInv U st) : SubsInv U (applyPass U st D).1 := by
  have hkept_sub := rr_kept_sublist U st.subs (mkNew U D st.nextFlag)
  have hkept_nodup :
      (((reconcilePass U st.subs D st.nextFlag st.nextTid).kept).map
        SubRec.flagId).Nodup := by
    rw [reconcilePass_kept]
    exact hinv.1.sublist (hkept_sub.map SubRec.flagId)
  have hstart_nodup := pass_started_fid_nodup U st D
  have hdisj : ∀ f ∈ ((reconcilePass U st.subs D st.nextFlag
      st.nextTid).kept).map SubRec.flagId,
      f ∉ ((reconcilePass U st.subs D st.nextFlag st.nextTid).started).map
        SubRec.flagId := by
    intro f hf hf'
    obtain ⟨hge, _⟩ := pass_started_fid_bounds U st D f hf'
    rw [reconcilePass_kept] at hf
    obtain ⟨s, hs, rfl⟩ := List.mem_map.1 hf
    have := hinv.2.1 s (hkept_sub.subset hs)
    omega
  have hsubs : (applyPass U st D).1.subs =
      (reconcilePass U st.subs D st.nextFlag st.nextTid).kept ++
      (reconcilePass U st.subs D st.nextFlag st.nextTid).started := rfl
  have hnf : (applyPass U st D).1.nextFlag = st.nextFlag + D.length := rfl
  refine ⟨?_, ?_, ?_⟩
  · rw [hsubs, List.map_append]
    exact hkept_nodup.append hstart_nodup
      (List.disjoint_left.2 (fun {f} hf => hdisj f hf))
  · intro s hs
    rw [hnf]
    rw [hsubs] at hs
    rcases List.mem_append.1 hs with hs' | hs'
    · have := pass_kept_fid_lt U st D hinv s hs'
      omega
    · have := pass_started_fid_bounds U st D s.flagId
        (List.mem_map_of_mem SubRec.flagId hs')
      omega
  · intro s hs
    rw [hsubs] at hs
    rcases List.mem_append.1 hs with hs' | hs'
    · rw [reconcilePass_kept] at hs'
      exact hinv.2.2 s (hkept_sub.subset hs')
    · rw [reconcilePass_started] at hs'
      obtain ⟨h0, hm, _, _, e3, _, _, _⟩ := runNew_mem_fst U _ _ s hs'
      have h0mem : h0 ∈ mkNew U D st.nextFlag :=
        rr_mem_rem U st.subs _ h0 hm
      obtain ⟨_, _, hhalt, _⟩ := mkNew_fields U D st.nextFlag h0 h0mem
      rw [e3, hhalt]

/-- A kept handle and a freshly started handle never carry erased-equal
descriptors (with a lawful `PartialEq` and a duplicate-free desired set):
the kept handle's match was consumed, and a second equal element would make
the desired set a non-set. -/
theorem pass_cross (U : SubTypes) (hs : SymmPeq U) (ht : TransPeq U)
    (st : SubsState U) (D : List (Desc U)) (hD : NoDupEqD U D) :
    ∀ k ∈ (retainReconcile U st.subs (mkNew U D st.nextFlag)).1,
      ∀ h ∈ (runNew U (retainReconcile U st.subs
        (mkNew U D st.nextFlag)).2.1 st.nextTid).1,
      equals_a U k.sub h.sub = false := by
  have hsymm : Symmetric (fun (a b : SubRec U) =>
      equals_a U a.sub b.sub = false) := by
    intro a b hab
    rw [equals_a_symm U hs]
    exact hab
  have hns_nodup := mkNew_flagId_nodup U D st.nextFlag
  have hns_pw : (mkNew U D st.nextFlag).Pairwise
      (fun a b => equals_a U a.sub b.sub = false) :=
    mkNew_pairwise U (fun a b => equals_a U a b = false) D st.nextFlag hD
  intro k hk h hh
  obtain ⟨m, hm, hkm, hrem⟩ :=
    rr_kept_match U st.subs (mkNew U D st.nextFlag) hns_nodup k hk
  obtain ⟨h0, hh0, hsub0, hfid0, _, _, _, _⟩ :=
    runNew_mem_fst U _ _ h hh
  cases hcon : equals_a U k.sub h.sub with
  | false => rfl
  | true =>
    have hkh0 : equals_a U k.sub h0.sub = true := by
      rw [← hsub0]; exact hcon
    have hmk : equals_a U m.sub k.sub = true := by
      rw [← equals_a_symm U hs]
      exact hkm
    have hmh0 : equals_a U m.sub h0.sub = true :=
      equals_a_trans U ht m.sub k.sub h0.sub hmk hkh0
    have hne : m ≠ h0 := by
      intro hc
      exact hrem h0 hh0 (by rw [hc])
    have h0ns : h0 ∈ mkNew U D st.nextFlag := rr_mem_rem U st.subs _ h0 hh0
    have := (List.Pairwise.forall hsymm hns_pw) hm h0ns hne
    rw [this] at hmh0
    cases hmh0

/-- With a lawful `PartialEq` (symmetric and transitive), reconciling a
duplicate-free running set against a duplicate-free desired set yields a
duplicate-free running set. -/
theorem applyPass_noDupEq (U : SubTypes) (hs : SymmPeq U) (ht : TransPeq U)
    (st : SubsState U) (hnd : NoDupEq U st.subs)
    (D : List (Desc U)) (hD : NoDupEqD U D) :
    NoDupEq U (applyPass U st D).1.subs := by
  have hsymm : Symmetric (fun (a b : SubRec U) =>
      equals_a U a.sub b.sub = false) := by
    intro a b hab
    rw [equals_a_symm U hs]
    exact hab
  have hns_pw : (mkNew U D st.nextFlag).Pairwise
      (fun a b => equals_a U a.sub b.sub = false) :=
    mkNew_pairwise U (fun a b => equals_a U a b = false) D st.nextFlag hD
  have hkept_pw : (retainReconcile U st.subs (mkNew U D st.nextFlag)).1.Pairwise
      (fun a b => equals_a U a.sub b.sub = false) :=
    hnd.sublist (rr_kept_sublist U st.subs (mkNew U D st.nextFlag))
  have hrem_pw : (retainReconcile U st.subs
      (mkNew U D st.nextFlag)).2.1.Pairwise
      (fun a b => equals_a U a.sub b.sub = false) := by
    obtain ⟨l, hperm, hsubl⟩ := rr_rem_subperm U st.subs (mkNew U D st.nextFlag)
    exact (hperm.pairwise_iff (fun hab => hsymm hab)).1 (hns_pw.sublist hsubl)
  have hstart_pw : (runNew U (retainReconcile U st.subs
      (mkNew U D st.nextFlag)).2.1 st.nextTid).1.Pairwise
      (fun a b => equals_a U a.sub b.sub = false) :=
    runNew_pairwise U (fun a b => equals_a U a b = false) _ _ hrem_pw
  have hcross := pass_cross U hs ht st D hD
  have hsubs : (applyPass U st D).1.subs =
      (reconcilePass U st.subs D st.nextFlag st.nextTid).kept ++
      (reconcilePass U st.subs D st.nextFlag st.nextTid).started := rfl
  show ((applyPass U st D).1.subs).Pairwise _
  rw [hsubs]
  rw [reconcilePass_kept, reconcilePass_started]
  exact List.pairwise_append.2 ⟨hkept_pw, hstart_pw, hcross⟩

theorem applyPass_gone (U : SubTypes) (f : Nat) (st : SubsState U)
    (D : List (Desc U)) (h : GoneFlag U f st) :
    GoneFlag U f (applyPass U st D).1 ∧ f ∉ (applyPass U st D).2.raised := by
  have hraised : (applyPass U st D).2.raised =
      (retainReconcile U st.subs (mkNew U D st.nextFlag)).2.2 := rfl
  have hnotr : f ∉ (applyPass U st D).2.raised := by
    rw [hraised]
    intro hc
    exact h.2 ((rr_raised_sublist U st.subs (mkNew U D st.nextFlag)).subset hc)
  have hsubs : (applyPass U st D).1.subs =
      (reconcilePass U st.subs D st.nextFlag st.nextTid).kept ++
      (reconcilePass U st.subs D st.nextFlag st.nextTid).started := rfl
  have hnf : (applyPass U st D).1.nextFlag = st.nextFlag + D.length := rfl
  obtain ⟨hlt, hnmem⟩ := h
  refine ⟨⟨by rw [hnf]; omega, ?_⟩, hnotr⟩
  rw [hsubs, List.map_append]
  intro hc
  rcases List.mem_append.1 hc with hc' | hc'
  · rw [reconcilePass_kept] at hc'
    exact hnmem (((rr_kept_sublist U st.subs _).map SubRec.flagId).subset hc')
  · obtain ⟨hge, _⟩ := pass_started_fid_bounds U st D f hc'
    omega

theorem runPasses_gone (U : SubTypes) (f : Nat) (st : SubsState U) :
    ∀ (Ds : List (List (Desc U))), GoneFlag U f st →
      (runPasses U st Ds).2.count f = 0 := by
  intro Ds
  induction Ds generalizing st with
  | nil => intro _; rfl
  | cons D rest ih =>
    intro h
    obtain ⟨h1, h2⟩ := applyPass_gone U f st D h
    show ((applyPass U st D).2.raised ++
      (runPasses U (applyPass U st D).1 rest).2).count f = 0
    rw [List.count_append]
    have hc1 : (applyPass U st D).2.raised.count f = 0 :=
      List.count_eq_zero.2 h2
    rw [hc1, ih _ h1]

theorem runPasses_inv (U : SubTypes) (st : SubsState U) :
    ∀ (Ds : List (List (Desc U))), SubsInv U st →
      SubsInv U (runPasses U st Ds).1 := by
  intro Ds
  induction Ds generalizing st with
  | nil => intro h; exact h
  | cons D rest ih =>
    intro h
    exact ih (applyPass U st D).1 (applyPass_inv U st D h)

/-! ## Lawfulness of the concrete witness universes -/

theorem natU_symm : SymmPeq natU :=
  fun _ _ _ => decide_eq_decide.mpr eq_comm

theorem natU_trans : TransPeq natU := by
  intro _ x y z hxy hyz
  exact decide_eq_true ((of_decide_eq_true hxy).trans (of_decide_eq_true hyz))

theorem natU_refl : ReflPeq natU :=
  fun _ _ => decide_eq_true rfl

theorem falseU_symm : SymmPeq falseU := fun _ _ _ => rfl

theorem falseU_trans : TransPeq falseU :=
  fun _ _ _ _ h _ => Bool.noConfusion h

theorem twoU_symm : SymmPeq twoU := by
  intro t x y
  cases t
  · exact decide_eq_decide.mpr eq_comm
  · exact decide_eq_decide.mpr eq_comm

theorem twoU_trans : TransPeq twoU := by
  intro t x y z hxy hyz
  cases t
  · exact decide_eq_true ((of_decide_eq_true hxy).trans (of_decide_eq_true hyz))
  · exact decide_eq_true ((of_decide_eq_true hxy).trans (of_decide_eq_true hyz))

theorem twoU_refl : ReflPeq twoU := by
  intro t x
  cases t
  · exact decide_eq_true rfl
  · exact decide_eq_true rfl

/-- A handle that the retain phase kept is not among the raised (stopped)
ones: its flag is not raised during the pass. -/
theorem rr_kept_fid_not_raised (U : SubTypes) (subs ns : List (SubRec U))
    (hnodup : (subs.map SubRec.flagId).Nodup) (sub : SubRec U)
    (hk : sub ∈ (retainReconcile U subs ns).1) :
    sub.flagId ∉ (retainReconcile U subs ns).2.2 := by
  intro hmem
  have hpart := rr_countP_partition U (fun y => y == sub.flagId) subs ns
  have hsub_in : sub ∈ subs := (rr_kept_sublist U subs ns).subset hk
  have hle := List.nodup_iff_count_le_one.1 hnodup sub.flagId
  rw [List.count_eq_countP] at hle
  have hkge : 0 < ((retainReconcile U subs ns).1.map SubRec.flagId).countP
      (fun y => y == sub.flagId) :=
    List.countP_pos_iff.2
      ⟨sub.flagId, List.mem_map_of_mem SubRec.flagId hk, by simp⟩
  have hrge : 0 < (retainReconcile U subs ns).2.2.countP
      (fun y => y == sub.flagId) :=
    List.countP_pos_iff.2 ⟨sub.flagId, hmem, by simp⟩
  omega

/-- A handle stopped by the retain phase shares its flag id with no kept
handle: it really is dropped from the running set. -/
theorem rr_stopped_not_kept (U : SubTypes) (subs ns : List (SubRec U))
    (hnodup : (subs.map SubRec.flagId).Nodup) (sub : SubRec U)
    (hmem : sub ∈ subs) (hno : ∀ x ∈ ns, subrecEq U sub x = false) :
    ∀ k ∈ (retainReconcile U subs ns).1, k.flagId ≠ sub.flagId := by
  intro k hk hfid
  have hr := rr_stop_mem U sub subs ns hmem hno
  have hpart := rr_countP_partition U (fun y => y == sub.flagId) subs ns
  have hle := List.nodup_iff_count_le_one.1 hnodup sub.flagId
  rw [List.count_eq_countP] at hle
  have hkge : 0 < ((retainReconcile U subs ns).1.map SubRec.flagId).countP
      (fun y => y == sub.flagId) :=
    List.countP_pos_iff.2
      ⟨k.flagId, List.mem_map_of_mem SubRec.flagId hk, by simp [hfid]⟩
  have hrge : 0 < (retainReconcile U subs ns).2.2.countP
      (fun y => y == sub.flagId) :=
    List.countP_pos_iff.2 ⟨sub.flagId, hr, by simp⟩
  omega

/-! ## The claims -/

/-- C9: the cancellation flag is monotonic and idempotent: after `raise()`,
`raised()` returns `true` and keeps returning `true` after any further
sequence of operations (it is never lowered); `raise()` on a raised flag is a
no-op; `raised()` on a fresh flag is `false`. -/
theorem c9_quitflag_monotonic_idempotent :
    (∀ f : QuitFlag, f.raise.raised = true) ∧
    (∀ (f : QuitFlag) (ops : List FlagOp),
      (applyFlagOps f.raise ops).raised = true) ∧
    (∀ f : QuitFlag, f.raise.raise = f.raise) ∧
    QuitFlag.new.raised = false := by
  have hall : ∀ (ops : List FlagOp) (g : QuitFlag), g.raised = true →
      (applyFlagOps g ops).raised = true := by
    intro ops
    induction ops with
    | nil => intro g hg; exact hg
    | cons o rest ih => intro g _; exact ih g.raise rfl
  exact ⟨fun _ => rfl, fun f ops => hall ops f.raise rfl, fun _ => rfl, rfl⟩

/-- C4: erased equality between two opaque descriptors is `false` whenever
their concrete types differ; whenever the right-hand descriptor downcasts to
the concrete type of the left-hand one, it equals that type's native
`PartialEq` equality (applied by the code as `downcast == self`; with a
symmetric — i.e. contract-abiding — `PartialEq` this is the native equality
of the pair in either order).  Stated for every universe of
application-defined descriptor types, none enumerated by the core. -/
theorem c4_erased_equality (U : SubTypes) (a b : Desc U) :
    (b.fst ≠ a.fst → equals_a U a b = false) ∧
    (∀ h : b.fst = a.fst,
      equals_a U a b = U.peq a.fst (castVal U h b.snd) a.snd) ∧
    (SymmPeq U → ∀ h : b.fst = a.fst,
      equals_a U a b = U.peq a.fst a.snd (castVal U h b.snd)) := by
  refine ⟨equals_a_diff_tag U a b, ?_, ?_⟩
  · intro h
    cases a with
    | mk ta va =>
      cases b with
      | mk tb vb =>
        dsimp at h
        cases h
        exact equals_a_same_tag U ta va vb
  · intro hs h
    cases a with
    | mk ta va =>
      cases b with
      | mk tb vb =>
        dsimp at h
        cases h
        rw [equals_a_same_tag U ta va vb, hs]
        rfl

/-- C4 witness: evaluated in a universe with two concrete descriptor types
(`Nat`-tagged and `Bool`-tagged): cross-type comparison is `false`, and
same-type comparison is the type's own equality. -/
theorem c4_witness :
    equals_a twoU twoDN twoDB = false ∧
    equals_a twoU twoDN twoDN' = false ∧
    equals_a twoU twoDN twoDN = true := by
  refine ⟨(c4_erased_equality twoU twoDN twoDB).1 (by decide), ?_, ?_⟩
  · have h := (c4_erased_equality twoU twoDN twoDN').2.1 rfl
    rw [h]
    decide
  · have h := (c4_erased_equality twoU twoDN twoDN).2.2 twoU_symm rfl
    rw [h]
    decide

/-- C10: erased equality is symmetric whenever each concrete type's
`PartialEq` is (descriptors of different concrete types compare unequal in
both directions), and reflexive whenever each concrete type's `PartialEq`
is. -/
theorem c10_erased_symm_refl (U : SubTypes) :
    (SymmPeq U → ∀ a b : Desc U, equals_a U a b = equals_a U b a) ∧
    (∀ a b : Desc U, a.fst ≠ b.fst →
      equals_a U a b = false ∧ equals_a U b a = false) ∧
    (ReflPeq U → ∀ a : Desc U, equals_a U a a = true) := by
  refine ⟨fun hs a b => equals_a_symm U hs a b, ?_, ?_⟩
  · intro a b hne
    exact ⟨equals_a_diff_tag U a b (fun hc => hne hc.symm),
      equals_a_diff_tag U b a (fun hc => hne hc)⟩
  · intro hr a
    cases a with
    | mk ta va =>
      rw [equals_a_same_tag U ta va va]
      exact hr ta va

/-- C10 witness: symmetry and reflexivity evaluated at concrete descriptors,
including a cross-type pair. -/
theorem c10_witness :
    (equals_a natU descA descB = equals_a natU descB descA) ∧
    (equals_a natU descA descA = true) ∧
    (equals_a twoU twoDN twoDB = false ∧ equals_a twoU twoDB twoDN = false) := by
  refine ⟨(c10_erased_symm_refl natU).1 natU_symm descA descB,
    (c10_erased_symm_refl natU).2.2 natU_refl descA,
    (c10_erased_symm_refl twoU).2.1 twoDN twoDB (by decide)⟩

/-- C1: reconciliation preserves matched handles.  For consecutive desired
subscription sets (sets: no two erased-equal elements; previously-desired set
reflected by the duplicate-free running set and the loop invariant) under
Rust's `PartialEq` contract (symmetry, transitivity): if a descriptor `d` of
the new set is erased-equal to the descriptor of a running handle `sub`, then
that exact handle record — cancellation flag unraised, worker thread
unchanged — stays in the running set, its flag is not raised, no spawn
carries its flag (never stopped-and-restarted), and no started handle carries
an erased-equal descriptor (no second handle for that descriptor in the
cycle). -/
theorem c1_matched_handle_preserved (U : SubTypes)
    (hs : SymmPeq U) (ht : TransPeq U)
    (st : SubsState U) (hinv : SubsInv U st) (hrun : NoDupEq U st.subs)
    (D : List (Desc U)) (hD : NoDupEqD U D)
    (sub : SubRec U) (hmem : sub ∈ st.subs)
    (d : Desc U) (hd : d ∈ D) (hmatch : equals_a U sub.sub d = true) :
    sub ∈ (applyPass U st D).1.subs ∧
    sub.halt = false ∧
    sub.flagId ∉ (applyPass U st D).2.raised ∧
    (∀ x ∈ (applyPass U st D).2.spawned, x.2 ≠ sub.flagId) ∧
    (∀ h ∈ (applyPass U st D).2.started, equals_a U sub.sub h.sub = false) := by
  obtain ⟨pre, post, hsplit⟩ := List.append_of_mem hmem
  have hns_nodup := mkNew_flagId_nodup U D st.nextFlag
  have hd' : d ∈ (mkNew U D st.nextFlag).map SubRec.sub := by
    rw [mkNew_map_sub]; exact hd
  obtain ⟨nsd, hnsd_mem, hnsd_sub⟩ := List.mem_map.1 hd'
  have hmatch' : subrecEq U sub nsd = true := by
    show equals_a U sub.sub nsd.sub = true
    rw [hnsd_sub]
    exact hmatch
  have hpre : ∀ s ∈ pre, subrecEq U s nsd = false := by
    intro s hsp
    have hpw : (pre ++ sub :: post).Pairwise
        (fun a b => equals_a U a.sub b.sub = false) := by
      rw [← hsplit]; exact hrun
    have hR : equals_a U s.sub sub.sub = false :=
      (List.pairwise_append.1 hpw).2.2 s hsp sub (List.mem_cons_self _ _)
    cases hcon : subrecEq U s nsd with
    | false => rfl
    | true =>
      have hsd : equals_a U s.sub d = true := by
        have : equals_a U s.sub nsd.sub = true := hcon
        rwa [hnsd_sub] at this
      have hdsub : equals_a U d sub.sub = true := by
        rw [← equals_a_symm U hs]
        exact hmatch
      have := equals_a_trans U ht s.sub d sub.sub hsd hdsub
      rw [hR] at this
      cases this
  have hkept : sub ∈ (retainReconcile U st.subs (mkNew U D st.nextFlag)).1 := by
    rw [hsplit]
    exact rr_keep U sub nsd pre post (mkNew U D st.nextFlag) hns_nodup
      hnsd_mem hmatch' hpre
  have hsubs_eq : (applyPass U st D).1.subs =
      (retainReconcile U st.subs (mkNew U D st.nextFlag)).1 ++
      (runNew U (retainReconcile U st.subs (mkNew U D st.nextFlag)).2.1
        st.nextTid).1 := rfl
  have hraised_eq : (applyPass U st D).2.raised =
      (retainReconcile U st.subs (mkNew U D st.nextFlag)).2.2 := rfl
  have hspawned_eq : (applyPass U st D).2.spawned =
      (runNew U (retainReconcile U st.subs (mkNew U D st.nextFlag)).2.1
        st.nextTid).2.2 := rfl
  have hstarted_eq : (applyPass U st D).2.started =
      (runNew U (retainReconcile U st.subs (mkNew U D st.nextFlag)).2.1
        st.nextTid).1 := rfl
  refine ⟨?_, hinv.2.2 sub hmem, ?_, ?_, ?_⟩
  · rw [hsubs_eq]
    exact List.mem_append.2 (Or.inl hkept)
  · rw [hraised_eq]
    exact rr_kept_fid_not_raised U st.subs (mkNew U D st.nextFlag) hinv.1
      sub hkept
  · intro x hx
    rw [hspawned_eq] at hx
    have hx2 : x.2 ∈ (runNew U (retainReconcile U st.subs
        (mkNew U D st.nextFlag)).2.1 st.nextTid).2.2.map Prod.snd :=
      List.mem_map_of_mem Prod.snd hx
    rw [runNew_spawned_map_snd, ← runNew_fst_map_flagId U _ st.nextTid] at hx2
    have hbound := pass_started_fid_bounds U st D x.2 hx2
    have := hinv.2.1 sub hmem
    omega
  · intro h hh
    rw [hstarted_eq] at hh
    exact pass_cross U hs ht st D hD sub hkept h hh

/-- C1 witness: a running handle for descriptor `5` matched by a new desired
set `{5, 7}` stays running. -/
theorem c1_witness :
    (⟨descA, 0, false, some 0⟩ : SubRec natU) ∈
      (applyPass natU ⟨[⟨descA, 0, false, some 0⟩], 1, 1⟩ [descA, descB]).1.subs :=
  (c1_matched_handle_preserved natU natU_symm natU_trans
    ⟨[⟨descA, 0, false, some 0⟩], 1, 1⟩
    ⟨by decide, by decide, by decide⟩
    (by simp [NoDupEq])
    [descA, descB] (by simp [NoDupEqD, descA, descB]; decide)
    ⟨descA, 0, false, some 0⟩ (by simp)
    descA (by simp) (by decide)).1

/-- C2: reconciliation stops removed handles exactly once, without blocking.
A running handle whose descriptor matches nothing in the new desired set has
its cancellation flag raised exactly once in that pass, is dropped from the
running set, and — across any continuation of the loop — that flag is never
raised again.  (`SubRec::stop` only raises the flag: the embedding contains
no join operation, mirroring the source's fire-and-forget stop.) -/
theorem c2_removed_handle_stopped_once (U : SubTypes)
    (st : SubsState U) (hinv : SubsInv U st)
    (sub : SubRec U) (hmem : sub ∈ st.subs)
    (D : List (Desc U)) (hno : ∀ x ∈ D, equals_a U sub.sub x = false)
    (rest : List (List (Desc U))) :
    (applyPass U st D).2.raised.count sub.flagId = 1 ∧
    (∀ k ∈ (applyPass U st D).1.subs, k.flagId ≠ sub.flagId) ∧
    (runPasses U st (D :: rest)).2.count sub.flagId = 1 := by
  have hno' : ∀ x ∈ mkNew U D st.nextFlag, subrecEq U sub x = false := by
    intro x hx
    show equals_a U sub.sub x.sub = false
    exact hno x.sub (mkNew_mem_sub U D st.nextFlag x hx)
  have hraised_eq : (applyPass U st D).2.raised =
      (retainReconcile U st.subs (mkNew U D st.nextFlag)).2.2 := rfl
  have hr : sub.flagId ∈ (retainReconcile U st.subs
      (mkNew U D st.nextFlag)).2.2 :=
    rr_stop_mem U sub st.subs (mkNew U D st.nextFlag) hmem hno'
  have hcount1 : (retainReconcile U st.subs
      (mkNew U D st.nextFlag)).2.2.count sub.flagId = 1 := by
    have hle : (retainReconcile U st.subs
        (mkNew U D st.nextFlag)).2.2.count sub.flagId ≤
        (st.subs.map SubRec.flagId).count sub.flagId :=
      (rr_raised_sublist U st.subs (mkNew U D st.nextFlag)).count_le _
    have hle1 := List.nodup_iff_count_le_one.1 hinv.1 sub.flagId
    have hge := List.count_pos_iff.2 hr
    omega
  have hnotin : ∀ k ∈ (applyPass U st D).1.subs, k.flagId ≠ sub.flagId := by
    intro k hk hfid
    have hsubs_eq : (applyPass U st D).1.subs =
        (retainReconcile U st.subs (mkNew U D st.nextFlag)).1 ++
        (runNew U (retainReconcile U st.subs (mkNew U D st.nextFlag)).2.1
          st.nextTid).1 := rfl
    rw [hsubs_eq] at hk
    rcases List.mem_append.1 hk with hk' | hk'
    · exact rr_stopped_not_kept U st.subs (mkNew U D st.nextFlag) hinv.1
        sub hmem hno' k hk' hfid
    · have hfmem : k.flagId ∈ (runNew U (retainReconcile U st.subs
          (mkNew U D st.nextFlag)).2.1 st.nextTid).1.map SubRec.flagId :=
        List.mem_map_of_mem SubRec.flagId hk'
      have hbound := pass_started_fid_bounds U st D k.flagId hfmem
      have := hinv.2.1 sub hmem
      omega
  refine ⟨by rw [hraised_eq]; exact hcount1, hnotin, ?_⟩
  have hrunEq : (runPasses U st (D :: rest)).2 =
      (applyPass U st D).2.raised ++
      (runPasses U (applyPass U st D).1 rest).2 := rfl
  have hgone : GoneFlag U sub.flagId (applyPass U st D).1 := by
    refine ⟨?_, ?_⟩
    · have hnf : (applyPass U st D).1.nextFlag = st.nextFlag + D.length := rfl
      have := hinv.2.1 sub hmem
      omega
    · intro hc
      obtain ⟨k, hk, hkf⟩ := List.mem_map.1 hc
      exact hnotin k hk hkf
  have hzero := runPasses_gone U sub.flagId (applyPass U st D).1 rest hgone
  rw [hrunEq, List.count_append, hzero, hraised_eq, hcount1]

/-- C2 witness: the handle for descriptor `5` is stopped exactly once when
the desired set becomes `{7}` and its flag is never raised in a follow-up
pass back to `{5}` (which starts a fresh handle instead). -/
theorem c2_witness :
    (applyPass natU ⟨[⟨descA, 0, false, some 0⟩], 1, 1⟩ [descB]).2.raised.count 0 = 1 ∧
    (∀ k ∈ (applyPass natU ⟨[⟨descA, 0, false, some 0⟩], 1, 1⟩ [descB]).1.subs,
      k.flagId ≠ 0) ∧
    (runPasses natU ⟨[⟨descA, 0, false, some 0⟩], 1, 1⟩ [[descB], [descA]]).2.count 0 = 1 :=
  c2_removed_handle_stopped_once natU ⟨[⟨descA, 0, false, some 0⟩], 1, 1⟩
    ⟨by decide, by decide, by decide⟩
    ⟨descA, 0, false, some 0⟩ (by simp)
    [descB] (by simp [descA, descB]; decide)
    [[descA]]

/-- C3: reconciliation starts newly desired subscriptions exactly once.  For
a descriptor `d` occurring once in the new desired set (a set) and matched by
no running handle, exactly one handle for `d` is started: it carries a
freshly allocated cancellation flag (unraised, not any existing flag id), its
worker is spawned (with a dup of the message sender, which every spawn
receives by construction), and exactly one spawn event carries that flag —
all after the retain phase has resolved every match. -/
theorem c3_new_descriptor_started_once (U : SubTypes)
    [∀ t, DecidableEq (U.Val t)]
    (st : SubsState U) (hinv : SubsInv U st)
    (D : List (Desc U)) (d : Desc U)
    (hone : D.countP (fun x => x == d) = 1)
    (hno : ∀ s ∈ st.subs, equals_a U s.sub d = false) :
    (applyPass U st D).2.started.countP (fun h => h.sub == d) = 1 ∧
    (∀ h ∈ (applyPass U st D).2.started, h.sub = d →
      h.halt = false ∧ st.nextFlag ≤ h.flagId ∧
      h.flagId ∉ st.subs.map SubRec.flagId ∧
      (∃ t, h.thread = some t) ∧
      (applyPass U st D).2.spawned.countP (fun x => x.2 == h.flagId) = 1) := by
  have hstarted_eq : (applyPass U st D).2.started =
      (runNew U (retainReconcile U st.subs (mkNew U D st.nextFlag)).2.1
        st.nextTid).1 := rfl
  have hspawned_eq : (applyPass U st D).2.spawned =
      (runNew U (retainReconcile U st.subs (mkNew U D st.nextFlag)).2.1
        st.nextTid).2.2 := rfl
  have hq : ∀ s ∈ st.subs, ∀ x ∈ mkNew U D st.nextFlag,
      (fun (h : SubRec U) => h.sub == d) x = true → subrecEq U s x = false := by
    intro s hsm x _ hx
    have hxd : x.sub = d := by simpa using hx
    show equals_a U s.sub x.sub = false
    rw [hxd]
    exact hno s hsm
  have hrem : (retainReconcile U st.subs (mkNew U D st.nextFlag)).2.1.countP
      (fun h => h.sub == d) = (mkNew U D st.nextFlag).countP
      (fun h => h.sub == d) :=
    rr_rem_countP_eq U (fun h => h.sub == d) st.subs (mkNew U D st.nextFlag) hq
  have hns : (mkNew U D st.nextFlag).countP (fun h => h.sub == d) = 1 := by
    rw [mkNew_countP U (fun x => x == d) D st.nextFlag]
    exact hone
  have hstart : (applyPass U st D).2.started.countP (fun h => h.sub == d) = 1 := by
    rw [hstarted_eq, runNew_countP_sub U (fun h => h.sub == d)
      (fun _ _ => rfl), hrem, hns]
  refine ⟨hstart, ?_⟩
  intro h hh hhd
  rw [hstarted_eq] at hh
  obtain ⟨h0, hh0, _, hfid0, hhalt0, t, _, hth⟩ := runNew_mem_fst U _ _ h hh
  have h0ns : h0 ∈ mkNew U D st.nextFlag :=
    rr_mem_rem U st.subs (mkNew U D st.nextFlag) h0 hh0
  obtain ⟨hge, hlt, hhalt, _⟩ := mkNew_fields U D st.nextFlag h0 h0ns
  have hfmem : h.flagId ∈ (runNew U (retainReconcile U st.subs
      (mkNew U D st.nextFlag)).2.1 st.nextTid).1.map SubRec.flagId :=
    List.mem_map_of_mem SubRec.flagId hh
  refine ⟨by rw [hhalt0, hhalt], by omega, ?_, ⟨t, hth⟩, ?_⟩
  · intro hc
    obtain ⟨s, hsm, hsf⟩ := List.mem_map.1 hc
    have := hinv.2.1 s hsm
    omega
  · rw [hspawned_eq]
    have hmap : (runNew U (retainReconcile U st.subs
        (mkNew U D st.nextFlag)).2.1 st.nextTid).2.2.countP
        (fun x => x.2 == h.flagId) =
        ((runNew U (retainReconcile U st.subs (mkNew U D st.nextFlag)).2.1
          st.nextTid).2.2.map Prod.snd).countP (fun f => f == h.flagId) := by
      rw [List.countP_map]
      rfl
    rw [hmap, runNew_spawned_map_snd, ← runNew_fst_map_flagId U _ st.nextTid]
    have hnodup := pass_started_fid_nodup U st D
    rw [reconcilePass_started] at hnodup
    have hle := List.nodup_iff_count_le_one.1 hnodup h.flagId
    rw [List.count_eq_countP] at hle
    have hge' : 0 < ((runNew U (retainReconcile U st.subs
        (mkNew U D st.nextFlag)).2.1 st.nextTid).1.map SubRec.flagId).countP
        (fun f => f == h.flagId) :=
      List.countP_pos_iff.2 ⟨h.flagId, hfmem, by simp⟩
    omega

/-- C3 witness: starting from a running set `{5}`, the newly desired
descriptor `7` gets exactly one freshly flagged, freshly threaded handle. -/
theorem c3_witness :
    (applyPass natU ⟨[⟨descA, 0, false, some 0⟩], 1, 1⟩
      [descA, descB]).2.started.countP (fun h => h.sub == descB) = 1 :=
  (c3_new_descriptor_started_once natU ⟨[⟨descA, 0, false, some 0⟩], 1, 1⟩
    ⟨by decide, by decide, by decide⟩
    [descA, descB] descB (by decide)
    (by simp [descA, descB]; decide)).1

/-- C5 counterexample: the claim "at most one running worker exists per
value-equality class of descriptor ... including sets containing duplicate
equal descriptors" is false on the code.  An application whose
`subscriptions` returns the same descriptor twice gets two running workers
with erased-equal descriptors right after initial start-up: the loop never
deduplicates. -/
theorem c5_counterexample :
    ¬ NoDupEq natU (rusteyRun natU Unit Unit Unit app5 []).1.subs := by
  intro h
  have hsubs : (rusteyRun natU Unit Unit Unit app5 []).1.subs =
      [⟨descA, 0, false, some 0⟩, ⟨descA, 1, false, some 1⟩] := rfl
  rw [hsubs] at h
  have h2 : equals_a natU descA descA = false :=
    (List.pairwise_cons.1 h).1 ⟨descA, 1, false, some 1⟩
      (List.mem_cons_self _ _)
  have htrue : equals_a natU descA descA = true := by decide
  exact Bool.noConfusion (htrue.symm.trans h2)

/-- C5 (amended): at most one running worker per erased-equality class of
descriptor holds at every point — after initial start-up (a pass from the
empty running set) and after every reconciliation pass — provided the
application's desired sets contain no two erased-equal descriptors and the
descriptor types' `PartialEq` obeys Rust's contract (symmetric and
transitive); it fails when a desired set contains duplicate equal
descriptors, which the loop starts once per occurrence. -/
theorem c5_amended_one_worker_per_descriptor (U : SubTypes)
    (hs : SymmPeq U) (ht : TransPeq U)
    (st : SubsState U) (hnd : NoDupEq U st.subs)
    (Ds : List (List (Desc U))) (hDs : ∀ D ∈ Ds, NoDupEqD U D) :
    NoDupEq U (runPasses U st Ds).1.subs := by
  induction Ds generalizing st with
  | nil => exact hnd
  | cons D rest ih =>
    exact ih (applyPass U st D).1
      (applyPass_noDupEq U hs ht st hnd D (hDs D (List.mem_cons_self _ _)))
      (fun D' hD' => hDs D' (List.mem_cons_of_mem _ hD'))

/-- C5 witness: start-up with `{5}` then a pass to `{5, 7}` keeps the
running set free of erased-equal duplicates. -/
theorem c5_witness :
    NoDupEq natU (runPasses natU ⟨[], 0, 0⟩ [[descA], [descA, descB]]).1.subs :=
  c5_amended_one_worker_per_descriptor natU natU_symm natU_trans
    ⟨[], 0, 0⟩ (by simp [NoDupEq])
    [[descA], [descA, descB]]
    (by
      intro D hD
      rcases List.mem_cons.1 hD with rfl | hD'
      · simp [NoDupEqD]
      · rcases List.mem_cons.1 hD' with rfl | hD''
        · simp [NoDupEqD, descA, descB]
          decide
        · cases hD'')

/-! ## Loop-level lemmas -/

theorem runLoop_cons (U : SubTypes) (T M E : Type) (app : RusteyApp U T M E)
    (st : RunState U T) (msg : Msg M E) (rest : List (Msg M E)) :
    runLoop U T M E app st (msg :: rest) =
      (if (iterate U T M E app st msg).1.quit
       then iterate U T M E app st msg
       else ((runLoop U T M E app (iterate U T M E app st msg).1 rest).1,
         (iterate U T M E app st msg).2 ++
           (runLoop U T M E app (iterate U T M E app st msg).1 rest).2)) := by
  conv_lhs => unfold runLoop

theorem runLoop_quit_eq (U : SubTypes) (T M E : Type) (app : RusteyApp U T M E)
    (st : RunState U T) (msg : Msg M E) (rest : List (Msg M E))
    (h : (iterate U T M E app st msg).1.quit = true) :
    runLoop U T M E app st (msg :: rest) = iterate U T M E app st msg := by
  rw [runLoop_cons, h]
  simp

theorem runLoop_cont_eq (U : SubTypes) (T M E : Type) (app : RusteyApp U T M E)
    (st : RunState U T) (msg : Msg M E) (rest : List (Msg M E))
    (h : (iterate U T M E app st msg).1.quit = false) :
    runLoop U T M E app st (msg :: rest) =
      ((runLoop U T M E app (iterate U T M E app st msg).1 rest).1,
        (iterate U T M E app st msg).2 ++
          (runLoop U T M E app (iterate U T M E app st msg).1 rest).2) := by
  rw [runLoop_cons, h]
  simp

/-- One-step unfolding of `iterate` when the message resolves to `some m`. -/
theorem iterate_some_eq (U : SubTypes) (T M E : Type) (app : RusteyApp U T M E)
    (st : RunState U T) (msg : Msg M E) (m : M)
    (hm : resolveMsg U T M E app (app.view st.model) msg = some m) :
    iterate U T M E app st msg =
      (⟨(app.update (app.view st.model) m st.quit).1,
        (app.update (app.view st.model) m st.quit).2.1,
        st.quit || (app.update (app.view st.model) m st.quit).2.2,
        (reconcilePass U st.subs (app.subscriptions
          (app.update (app.view st.model) m st.quit).1)
          st.nextFlag st.nextTid).kept ++
        (reconcilePass U st.subs (app.subscriptions
          (app.update (app.view st.model) m st.quit).1)
          st.nextFlag st.nextTid).started,
        (reconcilePass U st.subs (app.subscriptions
          (app.update (app.view st.model) m st.quit).1)
          st.nextFlag st.nextTid).nextFlag,
        (reconcilePass U st.subs (app.subscriptions
          (app.update (app.view st.model) m st.quit).1)
          st.nextFlag st.nextTid).nextTid⟩,
       handle T st.cmd ++ [Ev.render st.model, Ev.recvMsg] ++
         [Ev.updateCall] ++ Ev.reconcile :: passEvents T U
           (reconcilePass U st.subs (app.subscriptions
             (app.update (app.view st.model) m st.quit).1)
             st.nextFlag st.nextTid)) := by
  unfold iterate
  dsimp only
  rw [hm]

/-- One-step unfolding of `iterate` when the message resolves to `none`. -/
theorem iterate_none_eq (U : SubTypes) (T M E : Type) (app : RusteyApp U T M E)
    (st : RunState U T) (msg : Msg M E)
    (hm : resolveMsg U T M E app (app.view st.model) msg = none) :
    iterate U T M E app st msg =
      (⟨app.view st.model, none, st.quit,
        (reconcilePass U st.subs (app.subscriptions (app.view st.model))
          st.nextFlag st.nextTid).kept ++
        (reconcilePass U st.subs (app.subscriptions (app.view st.model))
          st.nextFlag st.nextTid).started,
        (reconcilePass U st.subs (app.subscriptions (app.view st.model))
          st.nextFlag st.nextTid).nextFlag,
        (reconcilePass U st.subs (app.subscriptions (app.view st.model))
          st.nextFlag st.nextTid).nextTid⟩,
       handle T st.cmd ++ [Ev.render st.model, Ev.recvMsg] ++
         [] ++ Ev.reconcile :: passEvents T U
           (reconcilePass U st.subs (app.subscriptions (app.view st.model))
             st.nextFlag st.nextTid)) := by
  unfold iterate
  dsimp only
  rw [hm]

/-- Every handle running after a reconciliation pass has an unraised flag,
provided the handles entering the pass had unraised flags. -/
theorem pass_halts_false (U : SubTypes) (subs : List (SubRec U))
    (D : List (Desc U)) (nf nt : Nat)
    (hhalts : ∀ s ∈ subs, s.halt = false) :
    ∀ h ∈ (reconcilePass U subs D nf nt).kept ++
      (reconcilePass U subs D nf nt).started, h.halt = false := by
  intro h hh
  rcases List.mem_append.1 hh with hh' | hh'
  · rw [reconcilePass_kept] at hh'
    exact hhalts h ((rr_kept_sublist U subs (mkNew U D nf)).subset hh')
  · rw [reconcilePass_started] at hh'
    obtain ⟨h0, hm, _, _, e3, _, _, _⟩ := runNew_mem_fst U _ _ h hh'
    have h0mem : h0 ∈ mkNew U D nf := rr_mem_rem U subs _ h0 hm
    obtain ⟨_, _, hhalt, _⟩ := mkNew_fields U D nf h0 h0mem
    rw [e3, hhalt]

/-- A running handle matching nothing in the desired set has its flag raised
by the pass. -/
theorem pass_stop_mem (U : SubTypes) (subs : List (SubRec U))
    (D : List (Desc U)) (nf nt : Nat) (s : SubRec U) (hmem : s ∈ subs)
    (hno : ∀ d ∈ D, equals_a U s.sub d = false) :
    s.flagId ∈ (reconcilePass U subs D nf nt).raised := by
  rw [reconcilePass_raised]
  refine rr_stop_mem U s subs (mkNew U D nf) hmem ?_
  intro x hx
  show equals_a U s.sub x.sub = false
  exact hno x.sub (mkNew_mem_sub U D nf x hx)

/-- No event of a reconciliation pass is a command spawn. -/
theorem passEvents_filter_spawnCmd (T : Type) (U : SubTypes)
    (p : PassResult U) :
    (passEvents T U p).filter (isSpawnCmdEv T) = [] := by
  rw [List.filter_eq_nil_iff]
  intro e he
  rcases List.mem_append.1 he with he' | he'
  · obtain ⟨f, _, rfl⟩ := List.mem_map.1 he'
    simp [isSpawnCmdEv]
  · obtain ⟨x, _, rfl⟩ := List.mem_map.1 he'
    simp [isSpawnCmdEv]

/-- The command spawns of one iteration are exactly the dispatch of the
command pending at its start. -/
theorem iterate_filter_spawnCmd (U : SubTypes) (T M E : Type)
    (app : RusteyApp U T M E) (st : RunState U T) (msg : Msg M E) :
    (iterate U T M E app st msg).2.filter (isSpawnCmdEv T) =
      handle T st.cmd := by
  have hhandle : (handle T st.cmd).filter (isSpawnCmdEv T) =
      handle T st.cmd := by
    cases st.cmd <;> simp [handle, isSpawnCmdEv]
  cases hres : resolveMsg U T M E app (app.view st.model) msg with
  | some m =>
    rw [iterate_some_eq U T M E app st msg m hres]
    simp only [List.filter_append, hhandle, List.filter_cons]
    rw [passEvents_filter_spawnCmd]
    simp [isSpawnCmdEv]
  | none =>
    rw [iterate_none_eq U T M E app st msg hres]
    simp only [List.filter_append, hhandle, List.filter_cons]
    rw [passEvents_filter_spawnCmd]
    simp [isSpawnCmdEv]

/-- When the pending command is absent, an iteration's trace begins with the
render of the model at the iteration's start. -/
theorem iterate_trace_head_of_cmd_none (U : SubTypes) (T M E : Type)
    (app : RusteyApp U T M E) (st : RunState U T) (hc : st.cmd = none)
    (msg : Msg M E) :
    ∃ tl, (iterate U T M E app st msg).2 = Ev.render st.model :: tl := by
  cases hres : resolveMsg U T M E app (app.view st.model) msg with
  | some m =>
    rw [iterate_some_eq U T M E app st msg m hres, hc]
    exact ⟨_, rfl⟩
  | none =>
    rw [iterate_none_eq U T M E app st msg hres, hc]
    exact ⟨_, rfl⟩

/-- When the pending command is present, an iteration's trace begins with
its dispatch. -/
theorem iterate_trace_head_of_cmd_some (U : SubTypes) (T M E : Type)
    (app : RusteyApp U T M E) (st : RunState U T) (c : Nat)
    (hc : st.cmd = some c) (msg : Msg M E) :
    ∃ tl, (iterate U T M E app st msg).2 = Ev.spawnCmd c :: tl := by
  cases hres : resolveMsg U T M E app (app.view st.model) msg with
  | some m =>
    rw [iterate_some_eq U T M E app st msg m hres, hc]
    exact ⟨_, rfl⟩
  | none =>
    rw [iterate_none_eq U T M E app st msg hres, hc]
    exact ⟨_, rfl⟩

/-- When the state's pending command is present, the loop's next observable
event is its dispatch. -/
theorem runLoop_trace_head_cmd_some (U : SubTypes) (T M E : Type)
    (app : RusteyApp U T M E) (st : RunState U T) (c : Nat)
    (hc : st.cmd = some c) (r : Msg M E) (rs : List (Msg M E)) :
    ∃ tl, (runLoop U T M E app st (r :: rs)).2 = Ev.spawnCmd c :: tl := by
  obtain ⟨tl, htl⟩ := iterate_trace_head_of_cmd_some U T M E app st c hc r
  cases hqq : (iterate U T M E app st r).1.quit with
  | true =>
    rw [runLoop_quit_eq U T M E app st r rs hqq, htl]
    exact ⟨tl, rfl⟩
  | false =>
    rw [runLoop_cont_eq U T M E app st r rs hqq]
    exact ⟨tl ++ (runLoop U T M E app (iterate U T M E app st r).1 rs).2,
      by rw [htl]; rfl⟩

/-- When the state's pending command is absent, the loop's next observable
event is the render of the current model. -/
theorem runLoop_trace_head (U : SubTypes) (T M E : Type)
    (app : RusteyApp U T M E) (st : RunState U T) (hc : st.cmd = none)
    (r : Msg M E) (rs : List (Msg M E)) :
    ∃ tl, (runLoop U T M E app st (r :: rs)).2 =
      Ev.render st.model :: tl := by
  obtain ⟨tl, htl⟩ := iterate_trace_head_of_cmd_none U T M E app st hc r
  cases hqq : (iterate U T M E app st r).1.quit with
  | true =>
    rw [runLoop_quit_eq U T M E app st r rs hqq, htl]
    exact ⟨tl, rfl⟩
  | false =>
    rw [runLoop_cont_eq U T M E app st r rs hqq]
    exact ⟨tl ++ (runLoop U T M E app (iterate U T M E app st r).1 rs).2,
      by rw [htl]; rfl⟩

/-- C6 counterexample: the claim that after the quit-raising update "every
handle still in the running set afterwards is signalled to stop (its
cancellation flag raised)" is false on the code.  With a constant
subscription set, the loop quits leaving its one surviving handle with an
unraised flag: `run` breaks out of the loop and returns without touching the
remaining handles. -/
theorem c6_counterexample :
    (rusteyRun natU Unit Unit Unit app6 [Msg.userEvent ()]).1.quit = true ∧
    (rusteyRun natU Unit Unit Unit app6 [Msg.userEvent ()]).1.subs.length = 1 ∧
    ((rusteyRun natU Unit Unit Unit app6 [Msg.userEvent ()]).1.subs.all
      (fun h => h.halt)) = false ∧
    ((rusteyRun natU Unit Unit Unit app6 [Msg.userEvent ()]).2.filter
      (isRaiseEv Unit)) = [] := ⟨rfl, rfl, rfl, rfl⟩

/-- C6 (amended): if the quit flag is raised during an update call, the loop
performs exactly one more reconciliation pass — stopping the handles whose
descriptors are absent from the final desired set — and then returns: the
iteration's trace ends with that pass's stop/start events (one reconcile, no
further render, no further message receive), and the loop result is exactly
that iteration.  Handles still in the running set after that pass are *not*
signalled: their flags stay unraised. -/
theorem c6_amended_quit_terminates (U : SubTypes) (T M E : Type)
    (app : RusteyApp U T M E) (st : RunState U T)
    (hq : st.quit = false)
    (hhalts : ∀ s ∈ st.subs, s.halt = false)
    (msg : Msg M E) (m : M)
    (hm : resolveMsg U T M E app (app.view st.model) msg = some m)
    (hraise : (app.update (app.view st.model) m false).2.2 = true)
    (rest : List (Msg M E)) :
    runLoop U T M E app st (msg :: rest) = iterate U T M E app st msg ∧
    (iterate U T M E app st msg).1.quit = true ∧
    (iterate U T M E app st msg).2 =
      handle T st.cmd ++ [Ev.render st.model, Ev.recvMsg] ++
        [Ev.updateCall] ++ Ev.reconcile :: passEvents T U
          (reconcilePass U st.subs (app.subscriptions
            (app.update (app.view st.model) m false).1)
            st.nextFlag st.nextTid) ∧
    (∀ s ∈ st.subs, (∀ d ∈ app.subscriptions
        (app.update (app.view st.model) m false).1,
        equals_a U s.sub d = false) →
      s.flagId ∈ (reconcilePass U st.subs (app.subscriptions
        (app.update (app.view st.model) m false).1)
        st.nextFlag st.nextTid).raised) ∧
    (∀ h ∈ (iterate U T M E app st msg).1.subs, h.halt = false) := by
  have hit := iterate_some_eq U T M E app st msg m hm
  rw [hq] at hit
  have hquit : (iterate U T M E app st msg).1.quit = true := by
    rw [hit]
    show (false || (app.update (app.view st.model) m false).2.2) = true
    rw [Bool.false_or]
    exact hraise
  refine ⟨runLoop_quit_eq U T M E app st msg rest hquit, hquit, ?_, ?_, ?_⟩
  · rw [hit]
  · intro s hsm hno
    exact pass_stop_mem U st.subs _ st.nextFlag st.nextTid s hsm hno
  · intro h hh
    rw [hit] at hh
    exact pass_halts_false U st.subs _ st.nextFlag st.nextTid hhalts h hh

/-- C6 witness: a quit-raising update on a constant subscription set makes
the loop return right after its final reconciliation pass, whose survivor
keeps an unraised flag. -/
theorem c6_witness :
    runLoop natU Unit Unit Unit app6 (initRun natU Unit Unit Unit app6).1
        [Msg.userEvent ()] =
      iterate natU Unit Unit Unit app6 (initRun natU Unit Unit Unit app6).1
        (Msg.userEvent ()) ∧
    (∀ h ∈ (iterate natU Unit Unit Unit app6
        (initRun natU Unit Unit Unit app6).1 (Msg.userEvent ())).1.subs,
      h.halt = false) := by
  have h := c6_amended_quit_terminates natU Unit Unit Unit app6
    (initRun natU Unit Unit Unit app6).1 rfl (by decide)
    (Msg.userEvent ()) () rfl rfl []
  exact ⟨h.1, h.2.2.2.2⟩

/-- C7 counterexample: the claim that a `map_event = None` event is followed
by a render "without visiting the Updating or Reconciling steps (in
particular, no subscription reconciliation occurs for that event)" is false
on the code.  `update` is indeed not called, but the reconciliation runs
unconditionally: with a never-self-equal (NaN-like, contract-legal)
descriptor, the ignored event observably stops the running handle (flag 0
raised) — an effect only the Reconciling step can produce. -/
theorem c7_counterexample :
    Ev.updateCall ∉
      (rusteyRun falseU Nat Unit Unit app7 [Msg.crosstermEvent ()]).2 ∧
    Ev.raiseFlag 0 ∈
      (rusteyRun falseU Nat Unit Unit app7 [Msg.crosstermEvent ()]).2 := by
  have htr : (rusteyRun falseU Nat Unit Unit app7 [Msg.crosstermEvent ()]).2 =
      [Ev.spawnSub 0 0, Ev.render 3, Ev.recvMsg, Ev.reconcile,
        Ev.raiseFlag 0, Ev.spawnSub 1 1] := rfl
  rw [htr]
  refine ⟨by simp, by simp⟩

/-- C7 (amended): when an external raw event is received and `map_event`
returns `None`, the update function is not called, the model is left
unchanged, and the pending command becomes absent — but the loop still
recomputes the desired subscription set and runs one reconciliation pass
against the unchanged model before rendering the unchanged model again. -/
theorem c7_amended_none_event (U : SubTypes) (T M E : Type)
    (app : RusteyApp U T M E) (st : RunState U T)
    (hq : st.quit = false) (msg : Msg M E)
    (hm : resolveMsg U T M E app (app.view st.model) msg = none)
    (r : Msg M E) (rs : List (Msg M E)) :
    (iterate U T M E app st msg).1.model = app.view st.model ∧
    (iterate U T M E app st msg).1.cmd = none ∧
    (iterate U T M E app st msg).1.quit = false ∧
    Ev.updateCall ∉ (iterate U T M E app st msg).2 ∧
    (iterate U T M E app st msg).2 =
      handle T st.cmd ++ [Ev.render st.model, Ev.recvMsg] ++ [] ++
        Ev.reconcile :: passEvents T U (reconcilePass U st.subs
          (app.subscriptions (app.view st.model)) st.nextFlag st.nextTid) ∧
    (iterate U T M E app st msg).1.subs =
      (reconcilePass U st.subs (app.subscriptions (app.view st.model))
        st.nextFlag st.nextTid).kept ++
      (reconcilePass U st.subs (app.subscriptions (app.view st.model))
        st.nextFlag st.nextTid).started ∧
    runLoop U T M E app st (msg :: r :: rs) =
      ((runLoop U T M E app (iterate U T M E app st msg).1 (r :: rs)).1,
        (iterate U T M E app st msg).2 ++
          (runLoop U T M E app (iterate U T M E app st msg).1 (r :: rs)).2) ∧
    (∃ tl, (runLoop U T M E app (iterate U T M E app st msg).1 (r :: rs)).2 =
      Ev.render (app.view st.model) :: tl) := by
  have hit := iterate_none_eq U T M E app st msg hm
  have hquit : (iterate U T M E app st msg).1.quit = false := by
    rw [hit]
    exact hq
  have hcmd : (iterate U T M E app st msg).1.cmd = none := by
    rw [hit]
  have hmodel : (iterate U T M E app st msg).1.model = app.view st.model := by
    rw [hit]
  refine ⟨hmodel, hcmd, hquit, ?_, by rw [hit], by rw [hit], ?_, ?_⟩
  · rw [hit]
    intro hmem
    rcases List.mem_append.1 hmem with hmem' | hmem'
    · rcases List.mem_append.1 hmem' with hmem'' | hmem''
      · rcases List.mem_append.1 hmem'' with hmem3 | hmem3
        · cases hc : st.cmd with
          | none => rw [hc] at hmem3; cases hmem3
          | some c =>
            rw [hc] at hmem3
            rcases List.mem_cons.1 hmem3 with heq | hmem4
            · cases heq
            · cases hmem4
        · rcases List.mem_cons.1 hmem3 with heq | hmem4
          · cases heq
          · rcases List.mem_cons.1 hmem4 with heq | hmem5
            · cases heq
            · cases hmem5
      · cases hmem''
    · rcases List.mem_cons.1 hmem' with heq | hmem''
      · cases heq
      · rcases List.mem_append.1 hmem'' with hmem3 | hmem3
        · obtain ⟨f, _, heq⟩ := List.mem_map.1 hmem3
          cases heq
        · obtain ⟨x, _, heq⟩ := List.mem_map.1 hmem3
          cases heq
  · exact runLoop_cont_eq U T M E app st msg (r :: rs) hquit
  · have := runLoop_trace_head U T M E app (iterate U T M E app st msg).1
      hcmd r rs
    rw [hmodel] at this
    exact this

/-- C7 witness: a `None`-mapped event leaves the model at `3`, calls no
update, and the loop immediately renders `3` again. -/
theorem c7_witness :
    (iterate falseU Nat Unit Unit app7 (initRun falseU Nat Unit Unit app7).1
      (Msg.crosstermEvent ())).1.model = 3 ∧
    Ev.updateCall ∉ (iterate falseU Nat Unit Unit app7
      (initRun falseU Nat Unit Unit app7).1 (Msg.crosstermEvent ())).2 ∧
    (∃ tl, (runLoop falseU Nat Unit Unit app7
        (iterate falseU Nat Unit Unit app7
          (initRun falseU Nat Unit Unit app7).1 (Msg.crosstermEvent ())).1
        [Msg.crosstermEvent ()]).2 = Ev.render 3 :: tl) := by
  have h := c7_amended_none_event falseU Nat Unit Unit app7
    (initRun falseU Nat Unit Unit app7).1 rfl (Msg.crosstermEvent ()) rfl
    (Msg.crosstermEvent ()) []
  exact ⟨h.1, h.2.2.2.1, h.2.2.2.2.2.2.2⟩

/-- C8 counterexample: the claim "whenever update (or init) returns a present
command, exactly one background unit of work is started for it ... in
particular ... the command returned by the update call in which the quit
flag is raised" is false on the code.  A quit-raising update returning
command `42` produces a run whose trace contains no command spawn at all:
dispatch happens at the top of the *next* iteration, which the `break`
prevents. -/
theorem c8_counterexample :
    (rusteyRun natU Unit Unit Unit app8 [Msg.userEvent ()]).1.cmd = some 42 ∧
    (rusteyRun natU Unit Unit Unit app8 [Msg.userEvent ()]).1.quit = true ∧
    ((rusteyRun natU Unit Unit Unit app8 [Msg.userEvent ()]).2.filter
      (isSpawnCmdEv Unit)) = [] := ⟨rfl, rfl, rfl⟩

/-- C8 (amended): command dispatch.  A present command is dispatched as
exactly one background spawn receiving the (dup'd) sender and no cancellation
flag; an absent command spawns nothing.  A command returned by `update` is
dispatched at the top of the next loop iteration; in particular the command
returned by the quit-raising update is never dispatched — the loop returns
with only the previously pending command's spawn in that final iteration's
trace. -/
theorem c8_amended_command_dispatch (U : SubTypes) (T M E : Type)
    (app : RusteyApp U T M E) :
    (∀ c : Nat, handle T (some c) = [Ev.spawnCmd c]) ∧
    (handle T (none : Option Nat) = ([] : List (Ev T))) ∧
    (∀ (st : RunState U T) (msg msg2 : Msg M E) (rest : List (Msg M E))
      (c : Nat),
      (iterate U T M E app st msg).1.quit = false →
      (iterate U T M E app st msg).1.cmd = some c →
      ∃ tl, (runLoop U T M E app st (msg :: msg2 :: rest)).2 =
        (iterate U T M E app st msg).2 ++ (Ev.spawnCmd c :: tl)) ∧
    (∀ (st : RunState U T) (msg : Msg M E) (rest : List (Msg M E)),
      (iterate U T M E app st msg).1.quit = true →
      runLoop U T M E app st (msg :: rest) = iterate U T M E app st msg ∧
      (iterate U T M E app st msg).2.filter (isSpawnCmdEv T) =
        handle T st.cmd) := by
  refine ⟨fun _ => rfl, rfl, ?_, ?_⟩
  · intro st msg msg2 rest c hquit hcmd
    rw [runLoop_cont_eq U T M E app st msg (msg2 :: rest) hquit]
    obtain ⟨tl, htl⟩ := runLoop_trace_head_cmd_some U T M E app
      (iterate U T M E app st msg).1 c hcmd msg2 rest
    exact ⟨tl, by rw [htl]⟩
  · intro st msg rest hquit
    exact ⟨runLoop_quit_eq U T M E app st msg rest hquit,
      iterate_filter_spawnCmd U T M E app st msg⟩

/-- C8 witness: for the quit-raising update returning command `42`, the loop
returns at once and the final iteration's only command spawns come from the
previously pending command (none here) — `42` is never dispatched. -/
theorem c8_witness :
    runLoop natU Unit Unit Unit app8 (initRun natU Unit Unit Unit app8).1
        [Msg.userEvent ()] =
      iterate natU Unit Unit Unit app8 (initRun natU Unit Unit Unit app8).1
        (Msg.userEvent ()) ∧
    (iterate natU Unit Unit Unit app8 (initRun natU Unit Unit Unit app8).1
        (Msg.userEvent ())).2.filter (isSpawnCmdEv Unit) =
      handle Unit (initRun natU Unit Unit Unit app8).1.cmd :=
  (c8_amended_command_dispatch natU Unit Unit Unit app8).2.2.2
    (initRun natU Unit Unit Unit app8).1 (Msg.userEvent ()) [] rfl

end Rustey
